import Mathlib

/-!
Verification of the Chinese Postman Problem solver (`planning/cpp_solver.py`).

The solver consumes a `networkx.MultiDiGraph`; we embed that data model as a
list of nodes (insertion order) and a list of directed edges (insertion
order).  networkx assigns each parallel edge an auto-key `0, 1, ...` in
insertion order; since the program never removes edges, the key of an edge is
exactly the number of earlier parallel edges with the same (src, tgt), so we
keep keys implicit in the directed graph and derive them where needed.
-/

attribute [local semireducible] Rat.add Rat.mul Rat.sub Rat.inv

namespace CPP

abbrev Node := Nat

/-- Edge attribute record.  Only the `length` attribute is ever consulted by
the solver; it may be absent (Python `.get('length', ...)`). -/
structure EdgeData where
  length : Option ℚ
deriving DecidableEq, Repr

/-- One directed edge of a `MultiDiGraph` (key implicit by position). -/
structure DEdge where
  src : Node
  tgt : Node
  data : EdgeData
deriving DecidableEq, Repr

/-- A `networkx.MultiDiGraph`: node list in insertion order and edge list in
insertion order (parallel edges permitted and kept distinct). -/
structure Graph where
  nodes : List Node
  edges : List DEdge
deriving DecidableEq, Repr

def emptyGraph : Graph := ⟨[], []⟩

/-- `G.add_node(v)` (a no-op when the node is already present). -/
def addNode (g : Graph) (v : Node) : Graph :=
  if v ∈ g.nodes then g else { g with nodes := g.nodes ++ [v] }

/-- `G.add_edge(u, v, **data)` with an auto-assigned key: missing endpoints
are inserted into the node set, and the edge is appended. -/
def addEdge (g : Graph) (u v : Node) (d : EdgeData) : Graph :=
  let g' := addNode (addNode g u) v
  { g' with edges := g'.edges ++ [⟨u, v, d⟩] }

/-- `G.in_degree(v)`: number of edges whose target is `v`. -/
def inDegree (g : Graph) (v : Node) : Nat :=
  g.edges.countP (fun e => e.tgt == v)

/-- `G.out_degree(v)`: number of edges whose source is `v`. -/
def outDegree (g : Graph) (v : Node) : Nat :=
  g.edges.countP (fun e => e.src == v)

/-- `G.number_of_edges()`. -/
def numberOfEdges (g : Graph) : Nat := g.edges.length

/-- `G.has_edge(u, v)`. -/
def hasEdge (g : Graph) (u v : Node) : Bool :=
  g.edges.any (fun e => e.src == u && e.tgt == v)

/-- `G[u][v][0]`: the data of the key-0 (first inserted) parallel edge from
`u` to `v`.  The program only evaluates this under a `has_edge` guard, so the
default is never reached along program paths. -/
def firstEdgeData (g : Graph) (u v : Node) : EdgeData :=
  ((g.edges.find? (fun e => e.src == u && e.tgt == v)).map DEdge.data).getD ⟨none⟩

/-- Well-formedness invariant of every graph the program builds: nodes are
pairwise distinct (networkx nodes are dict keys) and every edge references
present nodes (`add_edge` inserts missing endpoints). -/
def WFg (g : Graph) : Prop :=
  g.nodes.Nodup ∧ ∀ e ∈ g.edges, e.src ∈ g.nodes ∧ e.tgt ∈ g.nodes

instance : DecidablePred WFg := fun g => by
  unfold WFg; infer_instance

instance exceptDecEq {ε α : Type} [DecidableEq ε] [DecidableEq α] :
    DecidableEq (Except ε α)
  | .error e, .error e' =>
    if h : e = e' then .isTrue (by rw [h])
    else .isFalse (by intro hc; cases hc; exact h rfl)
  | .error _, .ok _ => .isFalse (by intro hc; cases hc)
  | .ok _, .error _ => .isFalse (by intro hc; cases hc)
  | .ok a, .ok b =>
    if h : a = b then .isTrue (by rw [h])
    else .isFalse (by intro hc; cases hc; exact h rfl)

/-- Errors surfaced by the underlying networkx library calls. -/
inductive NxErr where
  /-- `NetworkXPointlessConcept`: "Connectivity is undefined for the null
  graph", raised by `is_strongly_connected` / `is_connected` on a graph with
  no nodes. -/
  | pointlessConcept
  /-- `NetworkXError`: "G is not Eulerian", raised by `eulerian_circuit`. -/
  | notEulerian
  /-- Python `IndexError` from `list(undirected.nodes())[0]` on an empty
  node list. -/
  | indexError
deriving DecidableEq, Repr

end CPP

namespace CPP

/-! ### Reachability

networkx decides strong connectivity / connectivity / connected components by
graph search.  We embed the search as a saturation loop over an adjacency
function and prove it computes exactly the reflexive-transitive closure of
the step relation; the concrete library calls are instances of it. -/

/-- Reachability along an adjacency function. -/
def Reaches (adjF : Node → List Node) (a b : Node) : Prop :=
  Relation.ReflTransGen (fun x y => y ∈ adjF x) a b

/-- Saturation loop: repeatedly add all unvisited successors of the visited
set until a fixpoint is reached (fuel-bounded). -/
def reachAux (adjF : Node → List Node) : Nat → List Node → List Node
  | 0, vis => vis
  | n + 1, vis =>
    let new := ((vis.flatMap adjF).filter (fun x => decide (x ∉ vis))).dedup
    if new.isEmpty then vis else reachAux adjF n (vis ++ new)

/-- Set of nodes reachable from `s` (fuel `nodes.length` suffices, as proved
below). -/
def reachableFrom (nodes : List Node) (adjF : Node → List Node) (s : Node) :
    List Node :=
  reachAux adjF nodes.length [s]

theorem subset_reachAux (adjF : Node → List Node) :
    ∀ (n : Nat) (vis : List Node), vis ⊆ reachAux adjF n vis := by
  intro n
  induction n with
  | zero => intro vis; simp [reachAux]
  | succ n ih =>
    intro vis
    simp only [reachAux]
    split
    · exact List.Subset.refl _
    · exact fun x hx => ih _ (List.mem_append_left _ hx)

theorem reachAux_sound (adjF : Node → List Node) (s : Node) :
    ∀ (n : Nat) (vis : List Node), (∀ v ∈ vis, Reaches adjF s v) →
      ∀ x ∈ reachAux adjF n vis, Reaches adjF s x := by
  intro n
  induction n with
  | zero => intro vis h x hx; exact h x hx
  | succ n ih =>
    intro vis h x hx
    simp only [reachAux] at hx
    split at hx
    · exact h x hx
    · refine ih _ ?_ x hx
      intro v hv
      rcases List.mem_append.mp hv with hv | hv
      · exact h v hv
      · have hv' := List.mem_dedup.mp hv
        have hv'' := List.of_mem_filter hv'
        have hmem := List.mem_filter.mp hv'
        rcases List.mem_flatMap.mp hmem.1 with ⟨a, ha, hadj⟩
        exact Relation.ReflTransGen.tail (h a ha) hadj

theorem length_le_of_nodup_subset {l l' : List Node} (hnd : l.Nodup)
    (hsub : l ⊆ l') : l.length ≤ l'.length := by
  have h1 : l.toFinset.card = l.length := List.toFinset_card_of_nodup hnd
  have h2 : l.toFinset ⊆ l'.toFinset := by
    intro x hx
    rw [List.mem_toFinset] at hx ⊢
    exact hsub hx
  calc l.length = l.toFinset.card := h1.symm
    _ ≤ l'.toFinset.card := Finset.card_le_card h2
    _ ≤ l'.length := l'.toFinset_card_le

/-- Invariant-carrying saturation lemma: with enough fuel the result is a
duplicate-free subset of the node universe that is closed under the
adjacency function. -/
theorem reachAux_good (nodes : List Node) (adjF : Node → List Node)
    (hadj : ∀ a ∈ nodes, ∀ b ∈ adjF a, b ∈ nodes) :
    ∀ (n : Nat) (vis : List Node), vis.Nodup → vis ⊆ nodes →
      nodes.length + 1 ≤ n + vis.length →
      (reachAux adjF n vis).Nodup ∧ (reachAux adjF n vis) ⊆ nodes ∧
        ∀ v ∈ reachAux adjF n vis, ∀ w ∈ adjF v, w ∈ reachAux adjF n vis := by
  intro n
  induction n with
  | zero =>
    intro vis hnd hsub hlen
    have := length_le_of_nodup_subset hnd hsub
    omega
  | succ n ih =>
    intro vis hnd hsub hlen
    simp only [reachAux]
    split
    · refine ⟨hnd, hsub, ?_⟩
      intro v hv w hw
      by_contra hwv
      have hmem : w ∈ ((vis.flatMap adjF).filter (fun x => decide (x ∉ vis))).dedup := by
        rw [List.mem_dedup, List.mem_filter]
        exact ⟨List.mem_flatMap.mpr ⟨v, hv, hw⟩, by simpa using hwv⟩
      rename_i hemp
      rw [List.isEmpty_iff] at hemp
      rw [hemp] at hmem
      exact absurd hmem (List.not_mem_nil w)
    · rename_i hemp
      set new := ((vis.flatMap adjF).filter (fun x => decide (x ∉ vis))).dedup with hnew
      have hnewsub : new ⊆ nodes := by
        intro x hx
        rw [hnew, List.mem_dedup, List.mem_filter] at hx
        rcases List.mem_flatMap.mp hx.1 with ⟨a, ha, hadj'⟩
        exact hadj a (hsub ha) x hadj'
      have hnewdis : ∀ x ∈ new, x ∉ vis := by
        intro x hx
        rw [hnew, List.mem_dedup, List.mem_filter] at hx
        simpa using hx.2
      have hnd' : (vis ++ new).Nodup := by
        rw [List.nodup_append]
        exact ⟨hnd, List.nodup_dedup _, fun a ha hb => (hnewdis a hb) ha⟩
      have hsub' : (vis ++ new) ⊆ nodes := by
        intro x hx
        rcases List.mem_append.mp hx with hx | hx
        · exact hsub hx
        · exact hnewsub hx
      have hlen' : nodes.length + 1 ≤ n + (vis ++ new).length := by
        have hne : new ≠ [] := by
          intro h
          exact hemp (by simp [h])
        have hpos : 0 < new.length := List.length_pos.mpr hne
        rw [List.length_append]
        omega
      exact ih (vis ++ new) hnd' hsub' hlen'

/-- Correctness of the reachability computation: membership in the computed
set is exactly reachability along the adjacency function. -/
theorem mem_reachableFrom_iff (nodes : List Node) (adjF : Node → List Node)
    (hadj : ∀ a ∈ nodes, ∀ b ∈ adjF a, b ∈ nodes) (s : Node) (hs : s ∈ nodes) :
    ∀ x, x ∈ reachableFrom nodes adjF s ↔ Reaches adjF s x := by
  have hgood := reachAux_good nodes adjF hadj nodes.length [s]
    (List.nodup_singleton s) (by simpa using hs) (by simp)
  intro x
  constructor
  · intro hx
    refine reachAux_sound adjF s nodes.length [s] ?_ x hx
    intro v hv
    rw [List.mem_singleton] at hv
    exact hv ▸ Relation.ReflTransGen.refl
  · intro hx
    induction hx with
    | refl => exact subset_reachAux adjF nodes.length [s] (List.mem_singleton.mpr rfl)
    | tail _ hstep ih => exact hgood.2.2 _ ih _ hstep

theorem reachableFrom_nodup (nodes : List Node) (adjF : Node → List Node)
    (hadj : ∀ a ∈ nodes, ∀ b ∈ adjF a, b ∈ nodes) (s : Node) (hs : s ∈ nodes) :
    (reachableFrom nodes adjF s).Nodup :=
  (reachAux_good nodes adjF hadj nodes.length [s] (List.nodup_singleton s)
    (by simpa using hs) (by simp)).1

theorem reachableFrom_subset (nodes : List Node) (adjF : Node → List Node)
    (hadj : ∀ a ∈ nodes, ∀ b ∈ adjF a, b ∈ nodes) (s : Node) (hs : s ∈ nodes) :
    reachableFrom nodes adjF s ⊆ nodes :=
  (reachAux_good nodes adjF hadj nodes.length [s] (List.nodup_singleton s)
    (by simpa using hs) (by simp)).2.1

theorem self_mem_reachableFrom (nodes : List Node) (adjF : Node → List Node)
    (s : Node) : s ∈ reachableFrom nodes adjF s :=
  subset_reachAux adjF nodes.length [s] (List.mem_singleton.mpr rfl)

end CPP

namespace CPP

/-! ### `CPPSolver._is_eulerian` and `_get_odd_degree_nodes` -/

/-- Successors of `v` along directed edges. -/
def adjD (g : Graph) (v : Node) : List Node :=
  (g.edges.filter (fun e => e.src == v)).map DEdge.tgt

/-- `nx.is_strongly_connected(G)`: raises `NetworkXPointlessConcept` on the
null graph ("Connectivity is undefined for the null graph."), else reports
whether the first strongly connected component carries all nodes, i.e.
whether every ordered pair of nodes is connected by a directed path.  The
library computes this via Tarjan's SCC algorithm; we embed its input/output
behaviour by pairwise reachability. -/
def isStronglyConnectedExc (g : Graph) : Except NxErr Bool :=
  if g.nodes.isEmpty then .error .pointlessConcept
  else .ok (g.nodes.all fun u => g.nodes.all fun v =>
    v ∈ reachableFrom g.nodes (adjD g) u)

/-- `CPPSolver._is_eulerian`: scans the nodes for an in-degree/out-degree
mismatch (returning `False` on the first one), then defers to
`nx.is_strongly_connected` — which may raise. -/
def isEulerian (g : Graph) : Except NxErr Bool :=
  if g.nodes.all (fun node => inDegree g node == outDegree g node) then
    isStronglyConnectedExc g
  else .ok false

/-- Strong connectivity as stated by the spec: every node is reachable from
every other node via directed edges.  Following the standard convention
(shared by networkx, for which connectivity of the null graph is undefined,
and by Mathlib's `SimpleGraph.Connected`), a strongly connected graph must
have at least one node. -/
def StronglyConnected (g : Graph) : Prop :=
  g.nodes ≠ [] ∧ ∀ u ∈ g.nodes, ∀ v ∈ g.nodes, Reaches (adjD g) u v

/-- `CPPSolver._get_odd_degree_nodes`: nodes whose total (in+out) degree is
odd. -/
def getOddDegreeNodes (g : Graph) : List Node :=
  g.nodes.filter (fun node => (inDegree g node + outDegree g node) % 2 == 1)

theorem adjD_closed {g : Graph} (hwf : WFg g) :
    ∀ a ∈ g.nodes, ∀ b ∈ adjD g a, b ∈ g.nodes := by
  intro a _ b hb
  unfold adjD at hb
  rcases List.mem_map.mp hb with ⟨e, he, rfl⟩
  exact (hwf.2 e (List.mem_of_mem_filter he)).2

theorem reaches_adjD_mem {g : Graph} (hwf : WFg g) {u v : Node}
    (hu : u ∈ g.nodes) (h : Reaches (adjD g) u v) : v ∈ g.nodes := by
  induction h with
  | refl => exact hu
  | tail hsteps hstep ih => exact adjD_closed hwf _ ih _ hstep

theorem isStronglyConnectedExc_ok_true_iff {g : Graph} (hwf : WFg g) :
    isStronglyConnectedExc g = .ok true ↔ StronglyConnected g := by
  unfold isStronglyConnectedExc StronglyConnected
  by_cases hemp : g.nodes.isEmpty
  · simp only [hemp, if_true]
    rw [List.isEmpty_iff] at hemp
    simp [hemp]
  · simp only [hemp, if_false, Bool.false_eq_true]
    rw [List.isEmpty_iff] at hemp
    constructor
    · intro h
      have hall := Except.ok.inj h
      rw [List.all_eq_true] at hall
      refine ⟨hemp, fun u hu v hv => ?_⟩
      have := hall u hu
      rw [List.all_eq_true] at this
      have hmem := this v hv
      rw [decide_eq_true_eq] at hmem
      exact (mem_reachableFrom_iff g.nodes (adjD g) (adjD_closed hwf) u hu v).mp hmem
    · intro ⟨_, h⟩
      congr 1
      rw [List.all_eq_true]
      intro u hu
      rw [List.all_eq_true]
      intro v hv
      rw [decide_eq_true_eq]
      exact (mem_reachableFrom_iff g.nodes (adjD g) (adjD_closed hwf) u hu v).mpr
        (h u hu v hv)

/-- Core equivalence behind claim C2, shared by later proofs. -/
theorem isEulerian_ok_true_iff (g : Graph) (hwf : WFg g) :
    isEulerian g = .ok true ↔
      ((∀ n ∈ g.nodes, inDegree g n = outDegree g n) ∧ StronglyConnected g) := by
  unfold isEulerian
  by_cases hdeg : g.nodes.all (fun node => inDegree g node == outDegree g node)
  · simp only [hdeg, if_true]
    rw [isStronglyConnectedExc_ok_true_iff hwf]
    rw [List.all_eq_true] at hdeg
    constructor
    · intro h
      exact ⟨fun n hn => by simpa using hdeg n hn, h⟩
    · exact fun h => h.2
  · simp only [hdeg, if_false]
    constructor
    · intro h
      exact absurd (Except.ok.inj h) (by simp)
    · intro ⟨h, _⟩
      exact absurd (List.all_eq_true.mpr fun n hn => by simpa using h n hn) hdeg

/-- C2: `_is_eulerian` returns `True` exactly on graphs where every node's
in-degree equals its out-degree and the graph is strongly connected (every
node reachable from every other node via directed edges).  On the null
graph, which is not strongly connected by convention, the check raises
rather than returning `True`, so the equivalence holds for it as well. -/
theorem C2_is_eulerian_iff (g : Graph) (hwf : WFg g) :
    isEulerian g = .ok true ↔
      ((∀ n ∈ g.nodes, inDegree g n = outDegree g n) ∧ StronglyConnected g) :=
  isEulerian_ok_true_iff g hwf

/-- Witness for C2 at Scenario A's triangle graph. -/
def triangleGraph : Graph :=
  addEdge (addEdge (addEdge emptyGraph 1 2 ⟨some 100⟩) 2 3 ⟨some 150⟩) 3 1 ⟨some 200⟩

theorem C2_witness :
    WFg triangleGraph ∧
      (isEulerian triangleGraph = .ok true ↔
        ((∀ n ∈ triangleGraph.nodes,
            inDegree triangleGraph n = outDegree triangleGraph n) ∧
          StronglyConnected triangleGraph)) :=
  ⟨by decide, C2_is_eulerian_iff triangleGraph (by decide)⟩

end CPP

namespace CPP

/-! ### C7: odd-degree node set -/

theorem sum_map_add_nat (ns : List Node) (f g : Node → Nat) :
    (ns.map (fun v => f v + g v)).sum = (ns.map f).sum + (ns.map g).sum := by
  induction ns with
  | nil => simp
  | cons v ns ih => simp [ih]; omega

theorem sum_indicator_eq_count (ns : List Node) (x : Node) :
    (ns.map (fun v => if x = v then 1 else 0)).sum = ns.count x := by
  induction ns with
  | nil => simp
  | cons v ns ih =>
    simp only [List.map_cons, List.sum_cons, List.count_cons, ih]
    by_cases h : x = v
    · simp [h]
      omega
    · have h' : ¬(v = x) := fun hvx => h hvx.symm
      simp [h, h']

/-- Each edge is counted exactly once when its `f`-endpoint is tallied over a
duplicate-free node list containing all endpoints. -/
theorem sum_countP_endpoint (f : DEdge → Node) :
    ∀ (l : List DEdge) (ns : List Node), ns.Nodup → (∀ e ∈ l, f e ∈ ns) →
      (ns.map (fun v => l.countP (fun e => f e == v))).sum = l.length := by
  intro l
  induction l with
  | nil => intro ns _ _; simp
  | cons e l ih =>
    intro ns hnd hmem
    have hrec := ih ns hnd (fun e' he' => hmem e' (List.mem_cons_of_mem _ he'))
    have hfun : (fun v => (e :: l).countP (fun e' => f e' == v)) =
        (fun v => l.countP (fun e' => f e' == v) + if f e = v then 1 else 0) := by
      funext v
      rw [List.countP_cons]
      by_cases h : f e = v
      · simp [h]
      · simp [h]
    have hsplit : (ns.map (fun v => (e :: l).countP (fun e' => f e' == v))).sum =
        (ns.map (fun v => l.countP (fun e' => f e' == v))).sum +
          (ns.map (fun v => if f e = v then 1 else 0)).sum := by
      rw [hfun, sum_map_add_nat]
    rw [hsplit, hrec, sum_indicator_eq_count]
    have hcount : ns.count (f e) = 1 :=
      List.count_eq_one_of_mem hnd (hmem e (List.mem_cons_self e l))
    simp [hcount]

theorem countP_odd_parity (ns : List Node) (f : Node → Nat) :
    (ns.map f).sum % 2 = (ns.countP (fun v => f v % 2 == 1)) % 2 := by
  induction ns with
  | nil => simp
  | cons v ns ih =>
    simp only [List.map_cons, List.sum_cons, List.countP_cons]
    by_cases h : f v % 2 = 1
    · simp [h]
      omega
    · simp [h]
      omega

/-- C7: the odd-degree node scan returns exactly the nodes of odd total
(in-plus-out) degree, and that set always has even cardinality (handshake
parity; every edge contributes two endpoint incidences). -/
theorem C7_odd_degree_nodes (g : Graph) (hwf : WFg g) :
    (∀ v, v ∈ getOddDegreeNodes g ↔ Odd (inDegree g v + outDegree g v)) ∧
      Even (getOddDegreeNodes g).length := by
  constructor
  · intro v
    unfold getOddDegreeNodes
    rw [List.mem_filter]
    constructor
    · intro ⟨_, h⟩
      rw [beq_iff_eq] at h
      exact Nat.odd_iff.mpr h
    · intro h
      have hodd := Nat.odd_iff.mp h
      refine ⟨?_, by simpa using hodd⟩
      have hpos : 0 < inDegree g v + outDegree g v := by omega
      by_cases hin : 0 < inDegree g v
      · unfold inDegree at hin
        rw [List.countP_pos_iff] at hin
        rcases hin with ⟨e, he, hpe⟩
        rw [beq_iff_eq] at hpe
        exact hpe ▸ (hwf.2 e he).2
      · have hout : 0 < outDegree g v := by omega
        unfold outDegree at hout
        rw [List.countP_pos_iff] at hout
        rcases hout with ⟨e, he, hpe⟩
        rw [beq_iff_eq] at hpe
        exact hpe ▸ (hwf.2 e he).1
  · have hsum : (g.nodes.map (fun v => inDegree g v + outDegree g v)).sum =
        g.edges.length + g.edges.length := by
      rw [sum_map_add_nat]
      unfold inDegree outDegree
      rw [sum_countP_endpoint DEdge.tgt g.edges g.nodes hwf.1
        (fun e he => (hwf.2 e he).2)]
      rw [sum_countP_endpoint DEdge.src g.edges g.nodes hwf.1
        (fun e he => (hwf.2 e he).1)]
    have hpar := countP_odd_parity g.nodes (fun v => inDegree g v + outDegree g v)
    rw [hsum] at hpar
    have hcount : (getOddDegreeNodes g).length =
        g.nodes.countP (fun v => (inDegree g v + outDegree g v) % 2 == 1) := by
      unfold getOddDegreeNodes
      rw [← List.countP_eq_length_filter]
    rw [Nat.even_iff, hcount]
    omega

/-- Witness for C7 at a path graph with two odd-degree endpoints. -/
def pathGraph : Graph := addEdge (addEdge emptyGraph 1 2 ⟨some 5⟩) 2 3 ⟨some 7⟩

theorem C7_witness :
    WFg pathGraph ∧
      ((∀ v, v ∈ getOddDegreeNodes pathGraph ↔
          Odd (inDegree pathGraph v + outDegree pathGraph v)) ∧
        Even (getOddDegreeNodes pathGraph).length) :=
  ⟨by decide, C7_odd_degree_nodes pathGraph (by decide)⟩

end CPP

namespace CPP

/-! ### The undirected projection `G.to_undirected()`

`MultiDiGraph.to_undirected()` iterates the directed adjacency structure
(source nodes in insertion order, targets in first-appearance order, keys
ascending) and adds each directed edge `(u, v, key, data)` to an undirected
`MultiGraph`.  `MultiGraph.add_edge` with an explicit key *updates the data*
of an existing edge with the same endpoint pair (in either orientation) and
the same key instead of adding a parallel edge — so a pair of antiparallel
directed edges that share a key collapses into a single undirected edge. -/

/-- One edge of an undirected `MultiGraph`, with explicit key and stored
endpoint orientation. -/
structure UEdge where
  a : Node
  b : Node
  key : Nat
  data : EdgeData
deriving DecidableEq, Repr

/-- An undirected `MultiGraph`. -/
structure UGraph where
  nodes : List Node
  edges : List UEdge
deriving DecidableEq, Repr

/-- networkx auto-keys: the key of a directed edge is the number of earlier
parallel edges with the same source and target (the program never removes
edges, so auto-keys are consecutive from 0). -/
def assignKeys : List DEdge → List DEdge → List (DEdge × Nat)
  | _, [] => []
  | prev, e :: rest =>
    (e, prev.countP (fun p => p.src == e.src && p.tgt == e.tgt)) ::
      assignKeys (prev ++ [e]) rest

/-- Duplicate removal keeping first occurrences (Python dict iteration
order). -/
def dedupFirstAux (seen : List Node) : List Node → List Node
  | [] => []
  | x :: xs =>
    if x ∈ seen then dedupFirstAux seen xs
    else x :: dedupFirstAux (seen ++ [x]) xs

def dedupFirst (l : List Node) : List Node := dedupFirstAux [] l

/-- Targets of `u` in first-appearance order (`_adj[u]` iteration). -/
def targetsInOrder (g : Graph) (u : Node) : List Node :=
  dedupFirst ((g.edges.filter (fun e => e.src == u)).map DEdge.tgt)

/-- Does undirected edge `f` connect `u` and `v` (in either stored
orientation) under key `k`? -/
def uMatchKey (f : UEdge) (u v : Node) (k : Nat) : Bool :=
  f.key == k && ((f.a == u && f.b == v) || (f.a == v && f.b == u))

/-- `MultiGraph.add_edge(u, v, key=k, **d)`: update the data of an existing
`{u,v}` edge with key `k` (keeping its stored orientation and position), or
append a fresh edge. -/
def insertUEdge (acc : List UEdge) (u v : Node) (k : Nat) (d : EdgeData) :
    List UEdge :=
  if acc.any (fun f => uMatchKey f u v k) then
    acc.map (fun f => if uMatchKey f u v k then { f with data := d } else f)
  else acc ++ [⟨u, v, k, d⟩]

/-- Insertion of all of `u`'s outgoing keyed edges into the undirected
accumulator (`_adj[u]` iteration order: targets by first appearance, keys
ascending). -/
def undirectedInsertAll (g : Graph) (acc : List UEdge) (u : Node) : List UEdge :=
  (targetsInOrder g u).foldl (fun acc v =>
    ((assignKeys [] g.edges).filter
        (fun ek => ek.1.src == u && ek.1.tgt == v)).foldl
      (fun acc ek => insertUEdge acc u v ek.2 ek.1.data) acc) acc

/-- `G.to_undirected()` for a `MultiDiGraph`. -/
def toUndirected (g : Graph) : UGraph :=
  { nodes := g.nodes, edges := g.nodes.foldl (undirectedInsertAll g) [] }

/-- Is `v` an endpoint of `e`? -/
def uIncident (e : UEdge) (v : Node) : Bool := e.a == v || e.b == v

/-- The endpoint of `e` opposite to `v` (equals `v` for a self-loop). -/
def otherEnd (e : UEdge) (v : Node) : Node := if e.a = v then e.b else e.a

/-- Degree of `v` in an undirected edge list (`MultiGraph.degree`: a
self-loop contributes 2). -/
def uDegL (es : List UEdge) (v : Node) : Nat :=
  es.countP (fun e => e.a == v) + es.countP (fun e => e.b == v)

def uDeg (U : UGraph) (v : Node) : Nat := uDegL U.edges v

/-- `G.neighbors(v)` for a `MultiGraph`: distinct adjacent nodes in
first-incident-edge order (includes `v` itself when a self-loop exists). -/
def adjU (U : UGraph) (v : Node) : List Node :=
  dedupFirst ((U.edges.filter (fun e => uIncident e v)).map (fun e => otherEnd e v))

/-- `nx.is_connected(G)`: raises `NetworkXPointlessConcept` on the null
graph, else runs a BFS from an arbitrary (first) node and compares the
visit count with the node count. -/
def isConnectedExcU (U : UGraph) : Except NxErr Bool :=
  match U.nodes with
  | [] => .error .pointlessConcept
  | s :: _ => .ok (U.nodes.all fun v => v ∈ reachableFrom U.nodes (adjU U) s)

/-- `nx.connected_components(G)`: BFS from each not-yet-seen node in node
order. -/
def connectedComponentsAux (U : UGraph) : List Node → List Node → List (List Node)
  | [], _ => []
  | v :: rest, done =>
    if v ∈ done then connectedComponentsAux U rest done
    else reachableFrom U.nodes (adjU U) v ::
      connectedComponentsAux U rest (done ++ reachableFrom U.nodes (adjU U) v)

def connectedComponents (U : UGraph) : List (List Node) :=
  connectedComponentsAux U U.nodes []

/-- `max(nx.connected_components(undirected), key=len)`: Python `max` keeps
the first maximal element. -/
def largestCC (U : UGraph) : List Node :=
  match connectedComponents U with
  | [] => []
  | c :: cs => cs.foldl (fun best c' => if best.length < c'.length then c' else best) c

/-- `undirected.subgraph(nodes).copy()`: induced subgraph, preserving node
and edge order. -/
def usubgraph (U : UGraph) (keep : List Node) : UGraph :=
  { nodes := U.nodes.filter (fun v => decide (v ∈ keep)),
    edges := U.edges.filter (fun e => decide (e.a ∈ keep) && decide (e.b ∈ keep)) }

/-- Well-formedness of an undirected graph: edges reference present nodes. -/
def WFu (U : UGraph) : Prop :=
  ∀ e ∈ U.edges, e.a ∈ U.nodes ∧ e.b ∈ U.nodes

instance (U : UGraph) : Decidable (WFu U) := by
  unfold WFu
  infer_instance

theorem otherEnd_mem {U : UGraph} (hwf : WFu U) {e : UEdge} (he : e ∈ U.edges)
    (v : Node) : otherEnd e v ∈ U.nodes := by
  unfold otherEnd
  split
  · exact (hwf e he).2
  · exact (hwf e he).1

theorem mem_dedupFirstAux {x : Node} :
    ∀ (l seen : List Node), x ∈ dedupFirstAux seen l ↔ x ∈ l ∧ x ∉ seen := by
  intro l
  induction l with
  | nil => intro seen; simp [dedupFirstAux]
  | cons y ys ih =>
    intro seen
    rw [dedupFirstAux]
    split
    · rename_i hy
      rw [ih seen]
      constructor
      · intro ⟨h1, h2⟩
        exact ⟨List.mem_cons_of_mem _ h1, h2⟩
      · intro ⟨h1, h2⟩
        rcases List.mem_cons.mp h1 with rfl | h1
        · exact absurd hy h2
        · exact ⟨h1, h2⟩
    · rename_i hy
      rw [List.mem_cons, ih (seen ++ [y])]
      constructor
      · intro h
        rcases h with rfl | ⟨h1, h2⟩
        · exact ⟨List.mem_cons_self _ _, hy⟩
        · exact ⟨List.mem_cons_of_mem _ h1, fun hc => h2 (List.mem_append_left _ hc)⟩
      · intro ⟨h1, h2⟩
        rcases List.mem_cons.mp h1 with rfl | h1
        · exact Or.inl rfl
        · by_cases hxy : x = y
          · exact Or.inl hxy
          · refine Or.inr ⟨h1, fun hc => ?_⟩
            rcases List.mem_append.mp hc with hc | hc
            · exact h2 hc
            · rw [List.mem_singleton] at hc
              exact hxy hc

theorem mem_dedupFirst {x : Node} {l : List Node} : x ∈ dedupFirst l ↔ x ∈ l := by
  unfold dedupFirst
  rw [mem_dedupFirstAux]
  simp

theorem adjU_closed {U : UGraph} (hwf : WFu U) :
    ∀ a ∈ U.nodes, ∀ b ∈ adjU U a, b ∈ U.nodes := by
  intro a _ b hb
  unfold adjU at hb
  rw [mem_dedupFirst] at hb
  rcases List.mem_map.mp hb with ⟨e, he, rfl⟩
  exact otherEnd_mem hwf (List.mem_of_mem_filter he) a

end CPP

namespace CPP

/-! ### `nx.eulerian_circuit` and `CPPSolver._find_euler_circuit`

`eulerian_circuit` first checks `nx.is_eulerian` (raising `NetworkXError`
otherwise), copies the graph, picks the first node as source, and then runs
the stack-based Hierholzer generator `_multigraph_eulerian_circuit`: keep the
current vertex on top of a stack; while it has a remaining incident edge,
traverse (and remove) one and push its far endpoint; when it has none, pop
it, emitting the edge recorded at the previously popped entry.  We embed the
generator state directly; `arbitrary_element` of the incident edges is
modelled as the first incident edge in edge-list order. -/

/-- `nx.is_eulerian(G)` for an undirected graph: every degree even *and*
`nx.is_connected(G)`; Python's short-circuit `and` means the connectivity
call (which raises on the null graph) runs only when the degree scan
passes. -/
def nxIsEulerianU (U : UGraph) : Except NxErr Bool :=
  if U.nodes.all (fun v => uDeg U v % 2 == 0) then isConnectedExcU U
  else .ok false

/-- State of `_multigraph_eulerian_circuit`: remaining edges of the working
copy, the vertex stack (each entry carries the edge used to arrive at its
vertex, `none` for the source), the emitted output (with the emitted edge
kept for bookkeeping), and the `last_vertex`/`last_key` pair. -/
structure EulSt where
  rem : List UEdge
  stack : List (Node × Option UEdge)
  out : List (Node × Node × Option UEdge)
  last : Option (Node × Option UEdge)
deriving DecidableEq, Repr

/-- `arbitrary_element(G.edges(cv, keys=True))`, modelled as the first
remaining edge incident to `cv`. -/
def firstIncident (es : List UEdge) (v : Node) : Option UEdge :=
  es.find? (fun e => uIncident e v)

/-- One iteration of the `while vertex_stack:` loop. -/
def stepE (S : EulSt) : EulSt :=
  match S.stack with
  | [] => S
  | (cv, ck) :: rest =>
    match firstIncident S.rem cv with
    | some e =>
      { rem := S.rem.erase e,
        stack := (otherEnd e cv, some e) :: (cv, ck) :: rest,
        out := S.out, last := S.last }
    | none =>
      { rem := S.rem, stack := rest,
        out := match S.last with
          | none => S.out
          | some (lv, lk) => S.out ++ [(lv, cv, lk)],
        last := some (cv, ck) }

def runE : Nat → EulSt → EulSt
  | 0, S => S
  | n + 1, S => if S.stack = [] then S else runE n (stepE S)

def initEulSt (U : UGraph) (src : Node) : EulSt :=
  { rem := U.edges, stack := [(src, none)], out := [], last := none }

/-- Output of the generator with `keys=False` (each loop iteration pops or
removes an edge, so `2|E| + 1` iterations always suffice). -/
def hierholzer (U : UGraph) (src : Node) : List (Node × Node) :=
  (runE (2 * U.edges.length + 1) (initEulSt U src)).out.map (fun t => (t.1, t.2.1))

/-- `list(nx.eulerian_circuit(undirected))`. -/
def eulerianCircuitU (U : UGraph) : Except NxErr (List (Node × Node)) := do
  let b ← nxIsEulerianU U
  if b then
    match U.nodes with
    | [] => throw .pointlessConcept
    | s :: _ => pure (hierholzer U s)
  else throw .notEulerian

/-- The `dfs` fallback of `_find_euler_circuit`: mark the node visited, then
for each neighbour not yet visited append the tree edge and recurse.  The
Python recursion is unbounded; fuel `|nodes|` dominates the recursion depth
(every recursive call marks a fresh node). -/
def dfsGo (U : UGraph) : Nat → Node → List Node × List (Node × Node) →
    List Node × List (Node × Node)
  | 0, _, st => st
  | f + 1, node, st =>
    (adjU U node).foldl
      (fun st' nb =>
        if nb ∈ st'.1 then st'
        else dfsGo U f nb (st'.1, st'.2 ++ [(node, nb)]))
      (st.1 ++ [node], st.2)

def dfsEdges (U : UGraph) (s : Node) : List (Node × Node) :=
  (dfsGo U U.nodes.length s ([], [])).2

/-- `CPPSolver._find_euler_circuit`: project to undirected, restrict to the
largest connected component when disconnected, try `nx.eulerian_circuit`,
and on *any* exception (bare `except:`) fall back to DFS edge order, whose
start `list(undirected.nodes())[0]` raises `IndexError` on an empty node
list. -/
def findEulerCircuit (aug : Graph) : Except NxErr (List (Node × Node)) := do
  let undirected := toUndirected aug
  let conn ← isConnectedExcU undirected
  let U := if conn then undirected else usubgraph undirected (largestCC undirected)
  match eulerianCircuitU U with
  | .ok c => pure c
  | .error _ =>
    match U.nodes with
    | [] => throw .indexError
    | s :: _ => pure (dfsEdges U s)

end CPP

namespace CPP

/-! ### `CPPSolver._find_min_weight_matching` and `_augment_graph` -/

/-- Does undirected edge `e` connect `u` and `v` (either orientation)? -/
def uMatch (e : UEdge) (u v : Node) : Bool :=
  (e.a == u && e.b == v) || (e.a == v && e.b == u)

/-- networkx edge weight for a multigraph under `weight='length'`: the
minimum over the parallel edges between the two endpoints of
`data.get('length', 1)`. -/
def edgeWeightU (U : UGraph) (u v : Node) : ℚ :=
  match (U.edges.filter (fun e => uMatch e u v)).map
      (fun e => e.data.length.getD 1) with
  | [] => 0
  | w :: ws => ws.foldl min w

/-- Consecutive node pairs of a path (`for i in range(len(path) - 1)`). -/
def consecPairs : List Node → List (Node × Node)
  | [] => []
  | [_] => []
  | x :: y :: rest => (x, y) :: consecPairs (y :: rest)

def pathWeight (U : UGraph) (p : List Node) : ℚ :=
  ((consecPairs p).map (fun uv => edgeWeightU U uv.1 uv.2)).sum

/-- All simple paths from `x` to `y` avoiding `vis` (path length is bounded
by the node count, so fuel `|nodes| + 1` is exhaustive). -/
def simplePaths (U : UGraph) : Nat → Node → Node → List Node → List (List Node)
  | 0, _, _, _ => []
  | f + 1, x, y, vis =>
    if x = y then [[y]]
    else (adjU U x).flatMap (fun nb =>
      if nb ∈ vis then []
      else (simplePaths U f nb y (x :: vis)).map (fun p => x :: p))

/-- Modelled from the library contract: `nx.shortest_path` /
`nx.shortest_path_length` with `weight='length'` (Dijkstra) return a path of
minimum total weight together with that weight, or raise `NetworkXNoPath`
(here `none`) when the endpoints are not connected.  networkx's source is
not part of this repository, so the call is modelled by exhaustive
minimisation over simple paths; tie-breaks between equal-weight paths are an
arbitrary choice in both. -/
def shortestPathU (U : UGraph) (x y : Node) : Option (List Node × ℚ) :=
  match simplePaths U (U.nodes.length + 1) x y [] with
  | [] => none
  | p :: rest =>
    let best := rest.foldl
      (fun b q => if pathWeight U q < pathWeight U b then q else b) p
    some (best, pathWeight U best)

/-- `itertools.combinations(odd_nodes, 2)`. -/
def combos : List Node → List (Node × Node)
  | [] => []
  | x :: xs => xs.map (fun y => (x, y)) ++ combos xs

/-- One edge of the auxiliary complete graph over the odd nodes: endpoint
pair, shortest-path weight, and the shortest path itself. -/
structure AuxEdge where
  n1 : Node
  n2 : Node
  w : ℚ
  path : List Node
deriving DecidableEq, Repr

/-- The auxiliary graph construction: for every unordered pair of odd nodes,
compute the undirected shortest path; pairs with no path are skipped
(`except nx.NetworkXNoPath: continue`). -/
def buildAuxGraph (g : Graph) (odds : List Node) : List AuxEdge :=
  (combos odds).filterMap (fun p =>
    (shortestPathU (toUndirected g) p.1 p.2).map (fun pd => ⟨p.1, p.2, pd.2, pd.1⟩))

def endpointsOf (m : List AuxEdge) : List Node :=
  m.flatMap (fun e => [e.n1, e.n2])

def matchWeight (m : List AuxEdge) : ℚ :=
  (m.map AuxEdge.w).sum

/-- Modelled from the library contract:
`nx.algorithms.matching.min_weight_matching(complete_graph, weight='weight')`
inverts the weights and runs the exact blossom algorithm
(`max_weight_matching` with `maxcardinality=True`), returning a matching of
maximum cardinality whose total weight is minimal among those.  networkx's
blossom implementation is not part of this repository — and the spec (§4.2)
asks only for "any exact general-matching algorithm" — so the call is
modelled by exhaustive search over all sub-multisets of the auxiliary edges. -/
def minWeightMatchingModel (aux : List AuxEdge) : List AuxEdge :=
  match aux.sublists.filter (fun m => decide (endpointsOf m).Nodup) with
  | [] => []
  | c :: cs =>
    cs.foldl (fun best m =>
      if best.length < m.length ||
          (best.length == m.length && decide (matchWeight m < matchWeight best))
      then m else best) c

/-- `CPPSolver._find_min_weight_matching`: build the auxiliary graph, run the
matcher, and return the matched pairs with their shortest paths. -/
def findMinWeightMatching (g : Graph) (odds : List Node) :
    List (Node × Node × List Node) :=
  (minWeightMatchingModel (buildAuxGraph g odds)).map (fun e => (e.n1, e.n2, e.path))

/-- One hop of `_augment_graph`'s path duplication: look the edge up in the
*original* graph in both orientations (key-0 data) and append a duplicate to
the augmented graph; silently skip when the hop is not an original edge. -/
def augmentHop (g : Graph) (ag : Graph) (uv : Node × Node) : Graph :=
  if hasEdge g uv.1 uv.2 then addEdge ag uv.1 uv.2 (firstEdgeData g uv.1 uv.2)
  else if hasEdge g uv.2 uv.1 then addEdge ag uv.2 uv.1 (firstEdgeData g uv.2 uv.1)
  else ag

/-- `CPPSolver._augment_graph`: find odd-degree nodes of the *undirected
projection*, return a plain copy when there are none, else duplicate the
edges along every matched shortest path. -/
def augmentGraph (g : Graph) : Graph :=
  let und := toUndirected g
  let oddNodes := und.nodes.filter (fun node => uDeg und node % 2 == 1)
  if oddNodes.isEmpty then g
  else
    (findMinWeightMatching g oddNodes).foldl
      (fun ag t => (consecPairs t.2.2).foldl (augmentHop g) ag) g

/-! ### `CPPSolver` object state, `solve`, and the statistics -/

/-- The solver's mutable fields.  `__init__` stores a *copy* of the caller's
graph in `self.graph`, so the caller's object is never written through; in
this pure embedding the copy is the value itself and mutation is modelled by
state passing. -/
structure CPPState where
  graph : Graph
  augmentedGraph : Option Graph
  eulerCircuit : Option (List (Node × Node))
deriving DecidableEq, Repr

def initSolver (g : Graph) : CPPState := ⟨g, none, none⟩

/-- The augmentation phase of `CPPSolver.solve` as a function of
`self.graph`: copy the graph unchanged when it is already Eulerian,
otherwise run `_augment_graph` (`_is_eulerian` may raise). -/
def augmentStep (g : Graph) : Except NxErr Graph :=
  (isEulerian g).map (fun isEul => if isEul then g else augmentGraph g)

/-- `CPPSolver.solve`: the augmentation phase followed by
`_find_euler_circuit`. -/
def solve (st : CPPState) : Except NxErr CPPState := do
  let aug ← augmentStep st.graph
  let circuit ← findEulerCircuit aug
  pure { st with augmentedGraph := some aug, eulerCircuit := some circuit }

/-- Contribution of one circuit step `(u, v)` to `get_total_distance`:
`G[u][v]` on a `MultiDiGraph` is an `AtlasView` keyed by edge key — a
`Mapping` but *not* a `dict`, so the `isinstance(edge_data, dict)` branch is
never taken and the code always reads `edge_data[0].get('length', 0)`, the
key-0 (first inserted) parallel edge's length; direction `(u, v)` is tried
first, then `(v, u)`, else the step contributes 0. -/
def stepDistance (ag : Graph) (uv : Node × Node) : ℚ :=
  if hasEdge ag uv.1 uv.2 then (firstEdgeData ag uv.1 uv.2).length.getD 0
  else if hasEdge ag uv.2 uv.1 then (firstEdgeData ag uv.2 uv.1).length.getD 0
  else 0

/-- `CPPSolver.get_total_distance` (`if not self.euler_circuit: return 0`
covers both the never-solved and the empty-circuit case).  A state with a
circuit but no augmented graph does not arise along any program path. -/
def getTotalDistance (st : CPPState) : ℚ :=
  match st.eulerCircuit with
  | none => 0
  | some [] => 0
  | some circuit =>
    match st.augmentedGraph with
    | none => 0
    | some ag => (circuit.map (stepDistance ag)).sum

structure RouteStats where
  total_edges : Nat
  total_distance : ℚ
  unique_edges : Nat
  repeated_edges : Nat
  edge_coverage : ℚ
deriving DecidableEq, Repr

/-- `CPPSolver.get_route_stats`: the empty dict (`{}`) returned for a falsy
circuit is modelled as `none`; `len(set(...))` is the distinct-pair count. -/
def getRouteStats (st : CPPState) : Option RouteStats :=
  match st.eulerCircuit with
  | none => none
  | some [] => none
  | some circuit => some
    { total_edges := circuit.length,
      total_distance := getTotalDistance st,
      unique_edges := circuit.dedup.length,
      repeated_edges := circuit.length - circuit.dedup.length,
      edge_coverage :=
        (circuit.dedup.length : ℚ) / (numberOfEdges st.graph : ℚ) * 100 }

end CPP

namespace CPP

/-! ### Frame properties of augmentation (C8, C4) -/

/-- Graph `h` extends graph `g`: the original nodes and edges are still
present, unmodified and in their original positions, with new material only
appended. -/
def GExt (g h : Graph) : Prop :=
  (∃ t, h.edges = g.edges ++ t) ∧ (∃ t, h.nodes = g.nodes ++ t)

theorem gExt_refl (g : Graph) : GExt g g := ⟨⟨[], by simp⟩, ⟨[], by simp⟩⟩

theorem gExt_trans {g h k : Graph} (h1 : GExt g h) (h2 : GExt h k) : GExt g k := by
  obtain ⟨⟨t1, he1⟩, ⟨s1, hn1⟩⟩ := h1
  obtain ⟨⟨t2, he2⟩, ⟨s2, hn2⟩⟩ := h2
  exact ⟨⟨t1 ++ t2, by rw [he2, he1, List.append_assoc]⟩,
    ⟨s1 ++ s2, by rw [hn2, hn1, List.append_assoc]⟩⟩

theorem addNode_ext (g : Graph) (v : Node) : GExt g (addNode g v) := by
  unfold addNode
  split
  · exact gExt_refl g
  · exact ⟨⟨[], by simp⟩, ⟨[v], rfl⟩⟩

theorem addEdge_ext (g : Graph) (u v : Node) (d : EdgeData) :
    GExt g (addEdge g u v d) := by
  have h1 := addNode_ext g u
  have h2 := addNode_ext (addNode g u) v
  have h3 : GExt (addNode (addNode g u) v) (addEdge g u v d) := by
    refine ⟨⟨[⟨u, v, d⟩], rfl⟩, ⟨[], by simp [addEdge]⟩⟩
  exact gExt_trans (gExt_trans h1 h2) h3

theorem augmentHop_ext (g ag : Graph) (uv : Node × Node) :
    GExt ag (augmentHop g ag uv) := by
  unfold augmentHop
  split
  · exact addEdge_ext ag uv.1 uv.2 _
  · split
    · exact addEdge_ext ag uv.2 uv.1 _
    · exact gExt_refl ag

theorem foldl_gExt {α : Type} (f : Graph → α → Graph)
    (hf : ∀ ag a, GExt ag (f ag a)) :
    ∀ (l : List α) (g0 : Graph), GExt g0 (l.foldl f g0) := by
  intro l
  induction l with
  | nil => intro g0; exact gExt_refl g0
  | cons a l ih =>
    intro g0
    exact gExt_trans (hf g0 a) (ih (f g0 a))

/-- `_augment_graph` only adds: the augmented edge list is the original edge
list plus appended duplicates. -/
theorem augmentGraph_ext (g : Graph) : GExt g (augmentGraph g) := by
  simp only [augmentGraph]
  split
  · exact gExt_refl g
  · exact foldl_gExt
      (fun ag (t : Node × Node × List Node) => (consecPairs t.2.2).foldl (augmentHop g) ag)
      (fun ag t => foldl_gExt (augmentHop g) (fun ag' uv => augmentHop_ext g ag' uv)
        (consecPairs t.2.2) ag) _ g

/-! ### Totality of `_find_euler_circuit` on graphs with nodes -/

theorem mem_targetsInOrder {g : Graph} {u v : Node}
    (h : v ∈ targetsInOrder g u) : ∃ e ∈ g.edges, e.src = u ∧ e.tgt = v := by
  unfold targetsInOrder at h
  rw [mem_dedupFirst] at h
  rcases List.mem_map.mp h with ⟨e, he, rfl⟩
  have hsrc := List.of_mem_filter he
  rw [beq_iff_eq] at hsrc
  exact ⟨e, List.mem_of_mem_filter he, hsrc, rfl⟩

theorem foldl_invariant {α β : Type} (P : β → Prop) (f : β → α → β) :
    ∀ (l : List α) (b : β), P b → (∀ b a, a ∈ l → P b → P (f b a)) →
      P (l.foldl f b) := by
  intro l
  induction l with
  | nil => intro b hb _; simpa using hb
  | cons a l ih =>
    intro b hb hstep
    simp only [List.foldl_cons]
    exact ih (f b a) (hstep b a (List.mem_cons_self a l) hb)
      (fun b' a' ha' => hstep b' a' (List.mem_cons_of_mem _ ha'))

theorem insertUEdge_endpoints {P : Node → Prop} {acc : List UEdge}
    {u v : Node} {k : Nat} {d : EdgeData}
    (hacc : ∀ e ∈ acc, P e.a ∧ P e.b) (hu : P u) (hv : P v) :
    ∀ e ∈ insertUEdge acc u v k d, P e.a ∧ P e.b := by
  unfold insertUEdge
  split
  · intro e he
    rcases List.mem_map.mp he with ⟨f, hf, rfl⟩
    split
    · exact hacc f hf
    · exact hacc f hf
  · intro e he
    rcases List.mem_append.mp he with he | he
    · exact hacc e he
    · rw [List.mem_singleton] at he
      subst he
      exact ⟨hu, hv⟩

theorem toUndirected_WFu {g : Graph} (hwf : WFg g) : WFu (toUndirected g) := by
  show ∀ e ∈ (toUndirected g).edges, e.a ∈ (toUndirected g).nodes ∧
    e.b ∈ (toUndirected g).nodes
  show ∀ e ∈ (toUndirected g).edges, e.a ∈ g.nodes ∧ e.b ∈ g.nodes
  unfold toUndirected
  refine foldl_invariant (fun (acc : List UEdge) => ∀ e ∈ acc, e.a ∈ g.nodes ∧ e.b ∈ g.nodes)
    _ g.nodes [] (by simp) ?_
  intro acc u hu hacc
  unfold undirectedInsertAll
  refine foldl_invariant (fun (acc : List UEdge) => ∀ e ∈ acc, e.a ∈ g.nodes ∧ e.b ∈ g.nodes)
    _ (targetsInOrder g u) acc hacc ?_
  intro acc' v hv hacc'
  have hvmem : v ∈ g.nodes := by
    rcases mem_targetsInOrder hv with ⟨e, he, _, htgt⟩
    exact htgt ▸ (hwf.2 e he).2
  refine foldl_invariant (fun (acc : List UEdge) => ∀ e ∈ acc, e.a ∈ g.nodes ∧ e.b ∈ g.nodes)
    _ _ acc' hacc' ?_
  intro acc'' ek _ hacc''
  exact insertUEdge_endpoints hacc'' hu hvmem

theorem foldl_pick_mem {α : Type} (P : α → α → Prop) [DecidableRel P] :
    ∀ (cs : List α) (c : α),
      (cs.foldl (fun b x => if P b x then x else b) c) ∈ c :: cs := by
  intro cs
  induction cs with
  | nil => intro c; simp
  | cons x cs ih =>
    intro c
    simp only [List.foldl_cons]
    rcases List.mem_cons.mp (ih (if P c x then x else c)) with h | h
    · rw [h]
      split
      · exact List.mem_cons_of_mem _ (List.mem_cons_self _ _)
      · exact List.mem_cons_self _ _
    · exact List.mem_cons_of_mem _ (List.mem_cons_of_mem _ h)

theorem mem_connectedComponentsAux {U : UGraph} :
    ∀ (l done : List Node), ∀ c ∈ connectedComponentsAux U l done,
      ∃ v ∈ l, c = reachableFrom U.nodes (adjU U) v := by
  intro l
  induction l with
  | nil => intro done c hc; simp [connectedComponentsAux] at hc
  | cons v rest ih =>
    intro done c hc
    rw [connectedComponentsAux] at hc
    split at hc
    · rcases ih done c hc with ⟨w, hw, rfl⟩
      exact ⟨w, List.mem_cons_of_mem _ hw, rfl⟩
    · rcases List.mem_cons.mp hc with rfl | hc
      · exact ⟨v, List.mem_cons_self _ _, rfl⟩
      · rcases ih _ c hc with ⟨w, hw, rfl⟩
        exact ⟨w, List.mem_cons_of_mem _ hw, rfl⟩

theorem largestCC_cases {U : UGraph} {c : List Node} {cs : List (List Node)}
    (hcc : connectedComponents U = c :: cs) :
    largestCC U =
      cs.foldl (fun best c' => if best.length < c'.length then c' else best) c := by
  unfold largestCC
  rw [hcc]

theorem largestCC_spec {U : UGraph} (hwf : WFu U) (hne : U.nodes ≠ []) :
    ∃ v ∈ U.nodes, v ∈ largestCC U ∧ largestCC U ⊆ U.nodes := by
  have hccne : connectedComponents U ≠ [] := by
    unfold connectedComponents
    rcases List.exists_cons_of_ne_nil hne with ⟨s, rest, hs⟩
    have hstep : connectedComponentsAux U (s :: rest) [] =
        reachableFrom U.nodes (adjU U) s ::
          connectedComponentsAux U rest ([] ++ reachableFrom U.nodes (adjU U) s) := by
      rw [connectedComponentsAux]
      exact if_neg (List.not_mem_nil s)
    rw [hs, hstep]
    simp
  rcases hcc : connectedComponents U with _ | ⟨c, cs⟩
  · exact absurd hcc hccne
  · have hmem : (cs.foldl (fun best c' => if best.length < c'.length then c' else best) c)
        ∈ c :: cs := foldl_pick_mem (fun b x => b.length < x.length) cs c
    rw [← hcc] at hmem
    rcases mem_connectedComponentsAux U.nodes [] _ hmem with ⟨v, hv, heq⟩
    rw [largestCC_cases hcc, heq]
    exact ⟨v, hv, self_mem_reachableFrom U.nodes (adjU U) v,
      reachableFrom_subset U.nodes (adjU U) (adjU_closed hwf) v hv⟩

theorem exceptBind_ok {α β : Type} (a : α) (f : α → Except NxErr β) :
    (Except.ok a >>= f) = f a := rfl

theorem exceptBind_err {α β : Type} (e : NxErr) (f : α → Except NxErr β) :
    ((Except.error e : Except NxErr α) >>= f) = Except.error e := rfl

/-- `_find_euler_circuit` returns a circuit (never raises) whenever the
augmented graph has at least one node. -/
theorem findEulerCircuit_ok_of_ne {aug : Graph} (hwf : WFg aug)
    (hne : aug.nodes ≠ []) : ∃ c, findEulerCircuit aug = .ok c := by
  have hwu : WFu (toUndirected aug) := toUndirected_WFu hwf
  have hnodes : (toUndirected aug).nodes = aug.nodes := rfl
  simp only [findEulerCircuit]
  rcases hns : (toUndirected aug).nodes with _ | ⟨s, rest⟩
  · rw [hnodes] at hns
    exact absurd hns hne
  · have hconn : isConnectedExcU (toUndirected aug) =
        .ok ((toUndirected aug).nodes.all fun v =>
          v ∈ reachableFrom (toUndirected aug).nodes (adjU (toUndirected aug)) s) := by
      unfold isConnectedExcU
      rw [hns]
    rw [hconn, exceptBind_ok]
    set conn := ((toUndirected aug).nodes.all fun v =>
      v ∈ reachableFrom (toUndirected aug).nodes (adjU (toUndirected aug)) s) with hconndef
    set U : UGraph := if conn then toUndirected aug
      else usubgraph (toUndirected aug) (largestCC (toUndirected aug)) with hU
    have hUne : U.nodes ≠ [] := by
      rw [hU]
      split
      · rw [hns]; simp
      · rcases largestCC_spec hwu (by rw [hnodes]; exact hne) with ⟨v, hv, hvcc, _⟩
        have hvmem : v ∈ (usubgraph (toUndirected aug) (largestCC (toUndirected aug))).nodes := by
          show v ∈ (toUndirected aug).nodes.filter
            (fun x => decide (x ∈ largestCC (toUndirected aug)))
          rw [List.mem_filter]
          exact ⟨hv, by simpa using hvcc⟩
        exact List.ne_nil_of_mem hvmem
    rcases hec : eulerianCircuitU U with e | c
    · rcases hUns : U.nodes with _ | ⟨s', rest'⟩
      · exact absurd hUns hUne
      · exact ⟨dfsEdges U s', rfl⟩
    · exact ⟨c, rfl⟩

end CPP

namespace CPP

theorem initSolver_graph (g : Graph) : (initSolver g).graph = g := rfl

/-- C8: a `solve` call never mutates the solver's input graph (the caller's
object is shielded further by the `graph.copy()` in `__init__`, modelled here
by value semantics), and augmentation only appends edges: every original
edge — and node — is still present, unmodified and in its original position,
in the augmented graph. -/
theorem C8_solve_frame (g : Graph) (st' : CPPState)
    (h : solve (initSolver g) = .ok st') :
    st'.graph = g ∧ ∃ ag, st'.augmentedGraph = some ag ∧
      (∃ added, ag.edges = g.edges ++ added) ∧
      (∃ ns, ag.nodes = g.nodes ++ ns) := by
  unfold solve at h
  rw [initSolver_graph] at h
  cases hA : augmentStep g with
  | error e =>
    rw [hA, exceptBind_err] at h
    exact absurd h (by simp)
  | ok aug =>
    rw [hA, exceptBind_ok] at h
    cases hF : findEulerCircuit aug with
    | error e =>
      rw [hF, exceptBind_err] at h
      exact absurd h (by simp)
    | ok c =>
      rw [hF, exceptBind_ok] at h
      have hst : st' = ⟨g, some aug, some c⟩ :=
        (Except.ok.inj (show Except.ok (⟨g, some aug, some c⟩ : CPPState) =
          Except.ok st' from h)).symm
      have hext : GExt g aug := by
        unfold augmentStep at hA
        cases hE : isEulerian g with
        | error e' =>
          rw [hE] at hA
          exact absurd hA (by simp [Except.map])
        | ok b =>
          rw [hE] at hA
          have hb : (if b then g else augmentGraph g) = aug :=
            Except.ok.inj (show Except.ok (if b then g else augmentGraph g) =
              Except.ok aug from hA)
          cases b with
          | true => exact hb ▸ gExt_refl g
          | false => exact hb ▸ augmentGraph_ext g
      rw [hst]
      exact ⟨rfl, aug, rfl, hext.1, hext.2⟩

theorem C8_witness :
    solve (initSolver triangleGraph) =
        .ok ⟨triangleGraph, some triangleGraph, some [(1, 3), (3, 2), (2, 1)]⟩ ∧
      (⟨triangleGraph, some triangleGraph,
          some [(1, 3), (3, 2), (2, 1)]⟩ : CPPState).graph = triangleGraph ∧
      ∃ ag, (⟨triangleGraph, some triangleGraph,
          some [(1, 3), (3, 2), (2, 1)]⟩ : CPPState).augmentedGraph = some ag ∧
        (∃ added, ag.edges = triangleGraph.edges ++ added) ∧
        (∃ ns, ag.nodes = triangleGraph.nodes ++ ns) :=
  ⟨by decide, C8_solve_frame triangleGraph _ (by decide)⟩

/-- C4: on an already-Eulerian graph (equal in/out degrees everywhere and
strongly connected) the augmentation phase of `solve` is a plain copy — the
augmented graph *is* the original graph, so in particular the edge counts
agree — and running the augmentation phase twice gives the same result as
running it once. -/
theorem C4_augmentation_noop (g : Graph) (hwf : WFg g)
    (hdeg : ∀ n ∈ g.nodes, inDegree g n = outDegree g n)
    (hsc : StronglyConnected g) :
    augmentStep g = .ok g ∧
      (augmentStep g >>= augmentStep) = augmentStep g ∧
      ∃ st', solve (initSolver g) = .ok st' ∧ st'.augmentedGraph = some g ∧
        st'.augmentedGraph.map numberOfEdges = some (numberOfEdges g) := by
  have hE : isEulerian g = .ok true := (isEulerian_ok_true_iff g hwf).mpr ⟨hdeg, hsc⟩
  have hA : augmentStep g = .ok g := by
    unfold augmentStep
    rw [hE]
    rfl
  refine ⟨hA, ?_, ?_⟩
  · rw [hA, exceptBind_ok]
    exact hA
  · rcases findEulerCircuit_ok_of_ne hwf hsc.1 with ⟨c, hF⟩
    refine ⟨⟨g, some g, some c⟩, ?_, rfl, rfl⟩
    unfold solve
    rw [initSolver_graph, hA, exceptBind_ok, hF, exceptBind_ok]
    rfl

theorem C4_witness :
    StronglyConnected triangleGraph ∧
      (augmentStep triangleGraph = .ok triangleGraph ∧
        (augmentStep triangleGraph >>= augmentStep) = augmentStep triangleGraph ∧
        ∃ st', solve (initSolver triangleGraph) = .ok st' ∧
          st'.augmentedGraph = some triangleGraph ∧
          st'.augmentedGraph.map numberOfEdges =
            some (numberOfEdges triangleGraph)) :=
  ⟨((isEulerian_ok_true_iff triangleGraph (by decide)).mp (by decide)).2,
    C4_augmentation_noop triangleGraph (by decide) (by decide)
      ((isEulerian_ok_true_iff triangleGraph (by decide)).mp (by decide)).2⟩

end CPP

namespace CPP

/-! ### C9: `get_total_distance` -/

/-- A single directed street `1 → 2`; solving it duplicates the edge, and
the circuit is `[(1,2), (2,1)]`. -/
def oneEdgeGraphW : Graph := addEdge emptyGraph 1 2 ⟨some 100⟩

/-- The augmented graph that `solve` produces for `oneEdgeGraphW`. -/
def augOneEdgeW : Graph := addEdge oneEdgeGraphW 1 2 ⟨some 100⟩

theorem addNode_edges (g : Graph) (v : Node) : (addNode g v).edges = g.edges := by
  unfold addNode
  split
  · rfl
  · rfl

theorem addEdge_edges (g : Graph) (u v : Node) (d : EdgeData) :
    (addEdge g u v d).edges = g.edges ++ [⟨u, v, d⟩] := by
  show (addNode (addNode g u) v).edges ++ [⟨u, v, d⟩] = g.edges ++ [⟨u, v, d⟩]
  rw [addNode_edges, addNode_edges]

theorem find?_append_of_isSome {α : Type} (l l' : List α) (p : α → Bool)
    (h : (l.find? p).isSome) : (l ++ l').find? p = l.find? p := by
  induction l with
  | nil => simp at h
  | cons x xs ih =>
    by_cases hx : p x
    · simp [List.find?_cons_of_pos _ hx]
    · rw [List.find?_cons_of_neg _ hx] at h ⊢
      rw [List.cons_append, List.find?_cons_of_neg _ hx]
      exact ih h

theorem hasEdge_iff_find?_isSome (g : Graph) (u v : Node) :
    hasEdge g u v = true ↔
      (g.edges.find? (fun e => e.src == u && e.tgt == v)).isSome := by
  unfold hasEdge
  rw [List.any_eq_true, List.find?_isSome]

/-- Specification-side reading of one circuit step's contribution (C9): the
`length` of the first-keyed parallel edge between the step's endpoints,
direction `(u, v)` first, then `(v, u)`, defaulting to 0 when the attribute
or the edge is absent. -/
def specStepContribution (ag : Graph) (u v : Node) : ℚ :=
  match ag.edges.find? (fun e => e.src == u && e.tgt == v) with
  | some e => e.data.length.getD 0
  | none =>
    match ag.edges.find? (fun e => e.src == v && e.tgt == u) with
    | some e => e.data.length.getD 0
    | none => 0

theorem stepDistance_eq_spec (ag : Graph) (u v : Node) :
    stepDistance ag (u, v) = specStepContribution ag u v := by
  unfold stepDistance specStepContribution firstEdgeData
  by_cases h1 : hasEdge ag u v
  · have := (hasEdge_iff_find?_isSome ag u v).mp h1
    rcases Option.isSome_iff_exists.mp this with ⟨e, he⟩
    simp [h1, he]
  · have hn1 : ag.edges.find? (fun e => e.src == u && e.tgt == v) = none := by
      rcases hf : ag.edges.find? (fun e => e.src == u && e.tgt == v) with _ | e
      · exact hf
      · exact absurd ((hasEdge_iff_find?_isSome ag u v).mpr (by simp [hf])) h1
    by_cases h2 : hasEdge ag v u
    · have := (hasEdge_iff_find?_isSome ag v u).mp h2
      rcases Option.isSome_iff_exists.mp this with ⟨e, he⟩
      simp [h1, h2, hn1, he]
    · have hn2 : ag.edges.find? (fun e => e.src == v && e.tgt == u) = none := by
        rcases hf : ag.edges.find? (fun e => e.src == v && e.tgt == u) with _ | e
        · exact hf
        · exact absurd ((hasEdge_iff_find?_isSome ag v u).mpr (by simp [hf])) h2
      simp [h1, h2, hn1, hn2]

/-- C9: on a state carrying a produced circuit and augmented graph,
`get_total_distance` sums, over the circuit steps, exactly the first-keyed
parallel edge's `length` between the step endpoints (direction `(u,v)`
first, then `(v,u)`, 0 when absent); with no circuit produced it returns 0;
and the looked-up value ignores any later-keyed parallel edge (appending a
further parallel edge leaves a step's contribution unchanged). -/
theorem C9_total_distance (A : Graph) (c : List (Node × Node)) (st : CPPState)
    (hA : st.augmentedGraph = some A) (hc : st.eulerCircuit = some c) :
    getTotalDistance st =
        (c.map (fun uv => specStepContribution A uv.1 uv.2)).sum ∧
      (∀ st₀ : CPPState, st₀.eulerCircuit = none → getTotalDistance st₀ = 0) ∧
      (∀ u v : Node, ∀ d' : EdgeData, hasEdge A u v = true →
        specStepContribution (addEdge A u v d') u v = specStepContribution A u v) := by
  refine ⟨?_, ?_, ?_⟩
  · unfold getTotalDistance
    rw [hc]
    cases c with
    | nil => simp
    | cons uv rest =>
      rw [hA]
      have : ∀ l : List (Node × Node),
          (l.map (stepDistance A)).sum =
            (l.map (fun uv => specStepContribution A uv.1 uv.2)).sum := by
        intro l
        congr 1
        refine List.map_congr_left ?_
        intro x _
        exact stepDistance_eq_spec A x.1 x.2
      exact this (uv :: rest)
  · intro st₀ h0
    unfold getTotalDistance
    rw [h0]
  · intro u v d' hhas
    have hs := (hasEdge_iff_find?_isSome A u v).mp hhas
    unfold specStepContribution
    rw [addEdge_edges, find?_append_of_isSome _ _ _ hs]
    obtain ⟨e, he⟩ := Option.isSome_iff_exists.mp hs
    rw [he]

theorem C9_witness :
    ∃ st, solve (initSolver oneEdgeGraphW) = .ok st ∧
      st.augmentedGraph = some augOneEdgeW ∧
      st.eulerCircuit = some [(1, 2), (2, 1)] ∧
      (getTotalDistance st =
          (([(1, 2), (2, 1)] : List (Node × Node)).map
            (fun uv => specStepContribution augOneEdgeW uv.1 uv.2)).sum ∧
        (∀ st₀ : CPPState, st₀.eulerCircuit = none → getTotalDistance st₀ = 0) ∧
        (∀ u v : Node, ∀ d' : EdgeData, hasEdge augOneEdgeW u v = true →
          specStepContribution (addEdge augOneEdgeW u v d') u v =
            specStepContribution augOneEdgeW u v)) :=
  ⟨⟨oneEdgeGraphW, some augOneEdgeW, some [(1, 2), (2, 1)]⟩, by decide, rfl, rfl,
    C9_total_distance augOneEdgeW [(1, 2), (2, 1)] _ rfl rfl⟩

end CPP

namespace CPP

/-! ### C5: coverage percentage -/

/-- Counterexample to C5 as stated: on the single directed street `1 → 2`
(one original edge), `solve` duplicates the edge and produces the circuit
`[(1,2), (2,1)]`; its two distinct oriented pairs are divided by the *one*
original edge, giving a coverage of 200 — outside `[0, 100]`. -/
theorem C5_counterexample :
    (solve (initSolver oneEdgeGraphW)).map
        (fun st => (getRouteStats st).map RouteStats.edge_coverage) =
      .ok (some 200) ∧
      numberOfEdges oneEdgeGraphW = 1 ∧ ¬((200 : ℚ) ≤ 100) := by
  refine ⟨by decide, by decide, by norm_num⟩

/-- C5 amended: whenever a stats record is produced (nonempty circuit) on a
graph with at least one original edge, the coverage percentage is
nonnegative and equals 100 exactly when the circuit's distinct-pair count
equals the original edge count; but it is *not* bounded by 100, since
distinct circuit pairs are oriented traversals of the *augmented* undirected
projection rather than original edges. -/
theorem C5_coverage_amended (st : CPPState) (s : RouteStats)
    (hs : getRouteStats st = some s) (hpos : 1 ≤ numberOfEdges st.graph) :
    0 ≤ s.edge_coverage ∧
      (s.edge_coverage = 100 ↔ s.unique_edges = numberOfEdges st.graph) := by
  unfold getRouteStats at hs
  rcases hc : st.eulerCircuit with _ | c
  · rw [hc] at hs
    exact absurd hs (by simp)
  · rw [hc] at hs
    cases c with
    | nil => exact absurd hs (by simp)
    | cons uv rest =>
      have hrec := Option.some.inj hs
      have hn : (0 : ℚ) < (numberOfEdges st.graph : ℚ) := by
        exact_mod_cast hpos
      have hcov : s.edge_coverage =
          (((uv :: rest).dedup.length : ℚ) / (numberOfEdges st.graph : ℚ)) * 100 := by
        rw [← hrec]
      have huniq : s.unique_edges = (uv :: rest).dedup.length := by
        rw [← hrec]
      constructor
      · rw [hcov]
        positivity
      · rw [hcov, huniq]
        constructor
        · intro h
          have hd : ((uv :: rest).dedup.length : ℚ) = (numberOfEdges st.graph : ℚ) := by
            field_simp at h
            linarith
          exact_mod_cast hd
        · intro h
          rw [h]
          field_simp

theorem C5_amended_witness :
    ∃ st s, getRouteStats st = some s ∧ 1 ≤ numberOfEdges st.graph ∧
      (0 ≤ s.edge_coverage ∧
        (s.edge_coverage = 100 ↔ s.unique_edges = numberOfEdges st.graph)) := by
  refine ⟨⟨oneEdgeGraphW, some augOneEdgeW, some [(1, 2), (2, 1)]⟩,
    ⟨2, 200, 2, 0, 200⟩, by decide, by decide, ?_⟩
  exact C5_coverage_amended _ _ (by decide) (by decide)

end CPP

namespace CPP

/-! ### C6: zero-edge and empty-graph behaviour -/

theorem foldl_id {α β : Type} (f : β → α → β) (hf : ∀ b a, f b a = b) :
    ∀ (l : List α) (b : β), l.foldl f b = b := by
  intro l
  induction l with
  | nil => intro b; rfl
  | cons a l ih =>
    intro b
    rw [List.foldl_cons, hf b a]
    exact ih b

theorem targetsInOrder_nil {g : Graph} (hze : g.edges = []) (u : Node) :
    targetsInOrder g u = [] := by
  unfold targetsInOrder
  rw [hze]
  rfl

theorem toUndirected_edges_nil {g : Graph} (hze : g.edges = []) :
    (toUndirected g).edges = [] := by
  show g.nodes.foldl (undirectedInsertAll g) [] = []
  refine foldl_id _ ?_ g.nodes []
  intro acc u
  unfold undirectedInsertAll
  rw [targetsInOrder_nil hze]
  rfl

theorem augmentGraph_edgeless {g : Graph} (hze : g.edges = []) :
    augmentGraph g = g := by
  simp only [augmentGraph]
  have hodd : (toUndirected g).nodes.filter
      (fun node => uDeg (toUndirected g) node % 2 == 1) = [] := by
    rw [List.filter_eq_nil_iff]
    intro a _
    have h0 : uDeg (toUndirected g) a = 0 := by
      unfold uDeg uDegL
      rw [toUndirected_edges_nil hze]
      rfl
    rw [h0]
    decide
  rw [hodd]
  rfl

theorem adjU_nil {U : UGraph} (h : U.edges = []) (v : Node) : adjU U v = [] := by
  unfold adjU
  rw [h]
  rfl

theorem hierholzer_edgeless {U : UGraph} (h : U.edges = []) (s : Node) :
    hierholzer U s = [] := by
  unfold hierholzer initEulSt
  rw [h]
  rfl

theorem dfsEdges_edgeless {U : UGraph} (h : U.edges = []) (s : Node) :
    dfsEdges U s = [] := by
  unfold dfsEdges
  cases hn : U.nodes.length with
  | zero => rfl
  | succ n =>
    show (dfsGo U (n + 1) s ([], [])).2 = []
    rw [dfsGo, adjU_nil h]
    rfl

theorem eulerianCircuitU_edgeless {U : UGraph} (hze : U.edges = [])
    {s : Node} {rest : List Node} (hns : U.nodes = s :: rest) :
    eulerianCircuitU U = .ok [] ∨ eulerianCircuitU U = .error .notEulerian := by
  have hall : (U.nodes.all (fun v => uDeg U v % 2 == 0)) = true := by
    rw [List.all_eq_true]
    intro v _
    have h0 : uDeg U v = 0 := by
      unfold uDeg uDegL
      rw [hze]
      rfl
    rw [h0]
    rfl
  have hnx : nxIsEulerianU U = isConnectedExcU U := by
    unfold nxIsEulerianU
    rw [hall]
    rfl
  have hconn : isConnectedExcU U =
      .ok (U.nodes.all fun v => v ∈ reachableFrom U.nodes (adjU U) s) := by
    unfold isConnectedExcU
    rw [hns]
  unfold eulerianCircuitU
  rw [hnx, hconn, exceptBind_ok]
  cases hb : (U.nodes.all fun v => decide (v ∈ reachableFrom U.nodes (adjU U) s)) with
  | true =>
    left
    rw [if_pos rfl, hns]
    show Except.ok (hierholzer U s) = Except.ok ([] : List (Node × Node))
    rw [hierholzer_edgeless hze]
  | false =>
    right
    rfl

/-- With edges absent and at least one node, `_find_euler_circuit` returns
the empty circuit. -/
theorem findEulerCircuit_edgeless {aug : Graph} (hwf : WFg aug)
    (hne : aug.nodes ≠ []) (hze : aug.edges = []) :
    findEulerCircuit aug = .ok [] := by
  have hwu : WFu (toUndirected aug) := toUndirected_WFu hwf
  have hue : (toUndirected aug).edges = [] := toUndirected_edges_nil hze
  have hnodes : (toUndirected aug).nodes = aug.nodes := rfl
  simp only [findEulerCircuit]
  rcases hns : (toUndirected aug).nodes with _ | ⟨s, rest⟩
  · rw [hnodes] at hns
    exact absurd hns hne
  · have hconn : isConnectedExcU (toUndirected aug) =
        .ok ((toUndirected aug).nodes.all fun v =>
          v ∈ reachableFrom (toUndirected aug).nodes (adjU (toUndirected aug)) s) := by
      unfold isConnectedExcU
      rw [hns]
    rw [hconn, exceptBind_ok]
    set conn := ((toUndirected aug).nodes.all fun v =>
      v ∈ reachableFrom (toUndirected aug).nodes (adjU (toUndirected aug)) s) with hconndef
    set U : UGraph := if conn then toUndirected aug
      else usubgraph (toUndirected aug) (largestCC (toUndirected aug)) with hU
    have hUze : U.edges = [] := by
      rw [hU]
      split
      · exact hue
      · show (toUndirected aug).edges.filter _ = []
        rw [hue]
        rfl
    have hUne : U.nodes ≠ [] := by
      rw [hU]
      split
      · rw [hns]; simp
      · rcases largestCC_spec hwu (by rw [hnodes]; exact hne) with ⟨v, hv, hvcc, _⟩
        have hvmem : v ∈ (usubgraph (toUndirected aug) (largestCC (toUndirected aug))).nodes := by
          show v ∈ (toUndirected aug).nodes.filter
            (fun x => decide (x ∈ largestCC (toUndirected aug)))
          rw [List.mem_filter]
          exact ⟨hv, by simpa using hvcc⟩
        exact List.ne_nil_of_mem hvmem
    rcases hUns : U.nodes with _ | ⟨s', rest'⟩
    · exact absurd hUns hUne
    · rcases eulerianCircuitU_edgeless hUze hUns with hec | hec
      · rw [hec]
        rfl
      · rw [hec]
        show Except.ok (dfsEdges U s') = Except.ok ([] : List (Node × Node))
        rw [dfsEdges_edgeless hUze]

theorem isEulerian_ok_of_edgeless {g : Graph} (hne : g.nodes ≠ [])
    (hze : g.edges = []) : ∃ b, isEulerian g = .ok b := by
  unfold isEulerian
  have hdeg : (g.nodes.all fun node => inDegree g node == outDegree g node) = true := by
    rw [List.all_eq_true]
    intro n _
    unfold inDegree outDegree
    rw [hze]
    rfl
  rw [hdeg, if_pos rfl]
  unfold isStronglyConnectedExc
  rw [if_neg (fun h => hne (List.isEmpty_iff.mp h))]
  exact ⟨_, rfl⟩

/-- Counterexample to C6 as stated: on the empty (zero-node) graph the
Eulerian analyzer does *not* return a vacuously-true result — the strong
connectivity check raises `NetworkXPointlessConcept` ("Connectivity is
undefined for the null graph"), and `solve` propagates it.  No
`EmptyGraphError` exists anywhere in the repository. -/
theorem C6_counterexample :
    isEulerian emptyGraph = .error .pointlessConcept ∧
      solve (initSolver emptyGraph) = .error .pointlessConcept ∧
      isEulerian emptyGraph ≠ .ok true := by
  refine ⟨by decide, by decide, by decide⟩

/-- C6 amended: on a graph with zero edges but at least one node, every
component does return empty/zero results without throwing — the odd-degree
set is empty, the analyzer returns (some boolean) rather than raising, and
`solve` succeeds with the empty circuit, zero total distance and an empty
stats record.  On the zero-node graph, however, the analyzer raises
`NetworkXPointlessConcept` from the strong-connectivity check instead of
returning vacuously-true, and no explicit `EmptyGraphError` exists — the
fallback's start-node selection would raise a generic `IndexError`, but that
line is unreachable because the analyzer raises first. -/
theorem C6_zero_edge_amended (g : Graph) (hwf : WFg g) (hne : g.nodes ≠ [])
    (hze : g.edges = []) :
    getOddDegreeNodes g = [] ∧ (∃ b, isEulerian g = .ok b) ∧
      ∃ st', solve (initSolver g) = .ok st' ∧ st'.eulerCircuit = some [] ∧
        getTotalDistance st' = 0 ∧ getRouteStats st' = none := by
  refine ⟨?_, isEulerian_ok_of_edgeless hne hze, ?_⟩
  · unfold getOddDegreeNodes
    rw [List.filter_eq_nil_iff]
    intro n _
    unfold inDegree outDegree
    rw [hze]
    simp
  · obtain ⟨b, hE⟩ := isEulerian_ok_of_edgeless hne hze
    have hA : augmentStep g = .ok g := by
      unfold augmentStep
      rw [hE]
      cases b with
      | true => rfl
      | false =>
        show Except.ok (augmentGraph g) = Except.ok g
        rw [augmentGraph_edgeless hze]
    refine ⟨⟨g, some g, some []⟩, ?_, rfl, rfl, rfl⟩
    unfold solve
    rw [initSolver_graph, hA, exceptBind_ok, findEulerCircuit_edgeless hwf hne hze,
      exceptBind_ok]
    rfl

/-- Two isolated nodes: zero edges, not strongly connected, yet every
component returns an empty/zero result. -/
def twoIsolated : Graph := addNode (addNode emptyGraph 1) 2

theorem C6_amended_witness :
    WFg twoIsolated ∧ twoIsolated.edges = [] ∧
      (getOddDegreeNodes twoIsolated = [] ∧
        (∃ b, isEulerian twoIsolated = .ok b) ∧
        ∃ st', solve (initSolver twoIsolated) = .ok st' ∧
          st'.eulerCircuit = some [] ∧ getTotalDistance st' = 0 ∧
          getRouteStats st' = none) :=
  ⟨by decide, by decide,
    C6_zero_edge_amended twoIsolated (by decide) (by decide) (by decide)⟩

end CPP

namespace CPP

/-! ### C3: minimum-weight perfect matching

The claim compares the matcher's output against every other perfect matching
of the auxiliary complete graph.  We develop: membership facts about
`itertools.combinations`, a canonical perfect matching (consecutive pairing)
witnessing that maximum cardinality is `|odds| / 2`, and the argmax
properties of the exhaustive matcher model. -/

theorem combos_mem {x y : Node} :
    ∀ {l : List Node}, (x, y) ∈ combos l → x ∈ l ∧ y ∈ l := by
  intro l
  induction l with
  | nil => intro h; simp [combos] at h
  | cons a l ih =>
    intro h
    rw [combos] at h
    rcases List.mem_append.mp h with h | h
    · rcases List.mem_map.mp h with ⟨b, hb, heq⟩
      have hx : x = a := congrArg Prod.fst heq.symm
      have hy : y = b := congrArg Prod.snd heq.symm
      exact ⟨hx ▸ List.mem_cons_self a l, hy ▸ List.mem_cons_of_mem _ hb⟩
    · rcases ih h with ⟨hx, hy⟩
      exact ⟨List.mem_cons_of_mem _ hx, List.mem_cons_of_mem _ hy⟩

theorem combos_ne {x y : Node} :
    ∀ {l : List Node}, l.Nodup → (x, y) ∈ combos l → x ≠ y := by
  intro l
  induction l with
  | nil => intro _ h; simp [combos] at h
  | cons a l ih =>
    intro hnd h
    rw [combos] at h
    rcases List.mem_append.mp h with h | h
    · rcases List.mem_map.mp h with ⟨b, hb, heq⟩
      have hx : x = a := congrArg Prod.fst heq.symm
      have hy : y = b := congrArg Prod.snd heq.symm
      intro hxy
      rw [List.nodup_cons] at hnd
      exact hnd.1 (by rw [← hx, hxy, hy]; exact hb)
    · exact ih (List.nodup_cons.mp hnd).2 h

theorem combos_nodup : ∀ {l : List Node}, l.Nodup → (combos l).Nodup := by
  intro l
  induction l with
  | nil => intro _; simp [combos]
  | cons a l ih =>
    intro hnd
    rw [List.nodup_cons] at hnd
    rw [combos, List.nodup_append]
    refine ⟨?_, ih hnd.2, ?_⟩
    · exact List.Nodup.map (fun b c h => congrArg Prod.snd h) hnd.2
    · intro p hp hq
      rcases List.mem_map.mp hp with ⟨b, _, heq⟩
      have hfst : p.1 = a := by rw [← heq]
      exact hnd.1 (hfst ▸ (combos_mem hq).1)

/-- Consecutive pairing of a list: a canonical perfect matching of the
auxiliary complete graph. -/
def pairUp : List Node → List (Node × Node)
  | [] => []
  | [_] => []
  | x :: y :: rest => (x, y) :: pairUp rest

theorem combos_cons_subset {a : Node} {l : List Node} :
    combos l ⊆ combos (a :: l) := by
  intro p hp
  rw [combos]
  exact List.mem_append_right _ hp

theorem pairUp_subset_combos :
    ∀ {l : List Node}, ∀ p ∈ pairUp l, p ∈ combos l := by
  intro l
  induction l using pairUp.induct with
  | case1 => intro p hp; simp [pairUp] at hp
  | case2 x => intro p hp; simp [pairUp] at hp
  | case3 x y rest ih =>
    intro p hp
    rw [pairUp] at hp
    rcases List.mem_cons.mp hp with rfl | hp
    · rw [combos]
      exact List.mem_append_left _ (List.mem_map.mpr ⟨y, List.mem_cons_self _ _, rfl⟩)
    · exact combos_cons_subset (combos_cons_subset (ih p hp))

theorem pairUp_flatten :
    ∀ {l : List Node}, Even l.length →
      (pairUp l).flatMap (fun p => [p.1, p.2]) = l := by
  intro l
  induction l using pairUp.induct with
  | case1 => intro _; rfl
  | case2 x => intro h; simp at h
  | case3 x y rest ih =>
    intro h
    have hrest : Even rest.length := by
      simp only [List.length_cons] at h
      rcases h with ⟨k, hk⟩
      exact ⟨k - 1, by omega⟩
    rw [pairUp, List.flatMap_cons, ih hrest]
    rfl

theorem pairUp_nodup :
    ∀ {l : List Node}, l.Nodup → (pairUp l).Nodup := by
  intro l
  induction l using pairUp.induct with
  | case1 => intro _; simp [pairUp]
  | case2 x => intro _; simp [pairUp]
  | case3 x y rest ih =>
    intro hnd
    rw [pairUp, List.nodup_cons]
    have hnd' : rest.Nodup := ((List.nodup_cons.mp (List.nodup_cons.mp hnd).2).2)
    refine ⟨?_, ih hnd'⟩
    intro hmem
    have hx : x ∈ rest := by
      have := combos_mem (pairUp_subset_combos _ hmem)
      exact this.1
    exact (List.nodup_cons.mp hnd).1 (List.mem_cons_of_mem _ hx)

end CPP

namespace CPP

/-- Strict preference between matchings, as used in the matcher model: more
edges, or equally many edges and strictly smaller total weight. -/
def betterMatch (m best : List AuxEdge) : Prop :=
  best.length < m.length ∨ (best.length = m.length ∧ matchWeight m < matchWeight best)

theorem betterMatch_irrefl (m : List AuxEdge) : ¬betterMatch m m := by
  unfold betterMatch
  intro h
  rcases h with h | ⟨_, h⟩
  · omega
  · exact lt_irrefl _ h

theorem betterMatch_asymm {m b : List AuxEdge} (h : betterMatch m b) :
    ¬betterMatch b m := by
  unfold betterMatch at h ⊢
  intro h'
  rcases h with h | ⟨he, hw⟩ <;> rcases h' with h' | ⟨he', hw'⟩
  · omega
  · omega
  · omega
  · exact lt_irrefl _ (lt_trans hw hw')

theorem notBetter_trans {x y z : List AuxEdge}
    (h1 : ¬betterMatch x y) (h2 : ¬betterMatch y z) : ¬betterMatch x z := by
  unfold betterMatch at h1 h2 ⊢
  push_neg at h1 h2 ⊢
  refine ⟨by omega, ?_⟩
  intro hlen
  have hxy : x.length ≤ y.length := h1.1
  have hyz : y.length ≤ z.length := h2.1
  have hxly : x.length = y.length := by omega
  have hylz : y.length = z.length := by omega
  calc matchWeight z ≤ matchWeight y := h2.2 hylz.symm
    _ ≤ matchWeight x := h1.2 hxly.symm

theorem betterMatch_cond_iff (m best : List AuxEdge) :
    ((best.length < m.length ||
        (best.length == m.length && decide (matchWeight m < matchWeight best))) = true)
      ↔ betterMatch m best := by
  unfold betterMatch
  rw [Bool.or_eq_true, Bool.and_eq_true, decide_eq_true_eq, decide_eq_true_eq,
    beq_iff_eq]

theorem foldl_pickBest_spec :
    ∀ (cs : List (List AuxEdge)) (c : List AuxEdge),
      (cs.foldl (fun best m =>
          if best.length < m.length ||
              (best.length == m.length && decide (matchWeight m < matchWeight best))
          then m else best) c) ∈ c :: cs ∧
        ∀ x ∈ c :: cs, ¬betterMatch x
          (cs.foldl (fun best m =>
            if best.length < m.length ||
                (best.length == m.length && decide (matchWeight m < matchWeight best))
            then m else best) c) := by
  intro cs
  induction cs with
  | nil =>
    intro c
    refine ⟨List.mem_cons_self _ _, ?_⟩
    intro x hx
    rw [List.mem_singleton] at hx
    exact hx ▸ betterMatch_irrefl c
  | cons m cs ih =>
    intro c
    simp only [List.foldl_cons]
    by_cases hcond : betterMatch m c
    · rw [if_pos ((betterMatch_cond_iff m c).mpr hcond)]
      rcases ih m with ⟨hmem, hbest⟩
      refine ⟨?_, ?_⟩
      · rcases List.mem_cons.mp hmem with h | h
        · rw [h]; exact List.mem_cons_of_mem _ (List.mem_cons_self _ _)
        · exact List.mem_cons_of_mem _ (List.mem_cons_of_mem _ h)
      · intro x hx
        rcases List.mem_cons.mp hx with rfl | hx
        · exact notBetter_trans (betterMatch_asymm hcond)
            (hbest m (List.mem_cons_self _ _))
        · exact hbest x hx
    · rw [if_neg (fun h => hcond ((betterMatch_cond_iff m c).mp h))]
      rcases ih c with ⟨hmem, hbest⟩
      refine ⟨?_, ?_⟩
      · rcases List.mem_cons.mp hmem with h | h
        · rw [h]; exact List.mem_cons_self _ _
        · exact List.mem_cons_of_mem _ (List.mem_cons_of_mem _ h)
      · intro x hx
        rcases List.mem_cons.mp hx with rfl | hx
        · exact hbest x (List.mem_cons_self _ _)
        · rcases List.mem_cons.mp hx with rfl | hx
          · exact notBetter_trans hcond (hbest c (List.mem_cons_self _ _))
          · exact hbest x (List.mem_cons_of_mem _ hx)

end CPP

namespace CPP

theorem mem_buildAuxGraph_pair {g : Graph} {odds : List Node} {e : AuxEdge}
    (he : e ∈ buildAuxGraph g odds) : (e.n1, e.n2) ∈ combos odds := by
  unfold buildAuxGraph at he
  rcases List.mem_filterMap.mp he with ⟨p, hp, heq⟩
  rcases Option.map_eq_some'.mp heq with ⟨pd, _, hpd⟩
  have h1 : e.n1 = p.1 := by rw [← hpd]
  have h2 : e.n2 = p.2 := by rw [← hpd]
  rw [h1, h2]
  simpa using hp

theorem buildAuxGraph_complete {g : Graph} {odds : List Node}
    (hcomp : ∀ p ∈ combos odds, (shortestPathU (toUndirected g) p.1 p.2).isSome) :
    ∀ p ∈ combos odds, ∃ e ∈ buildAuxGraph g odds, e.n1 = p.1 ∧ e.n2 = p.2 := by
  intro p hp
  rcases Option.isSome_iff_exists.mp (hcomp p hp) with ⟨pd, hpd⟩
  refine ⟨⟨p.1, p.2, pd.2, pd.1⟩, ?_, rfl, rfl⟩
  unfold buildAuxGraph
  exact List.mem_filterMap.mpr ⟨p, hp, by rw [hpd]; rfl⟩

theorem buildAuxGraph_nodup {g : Graph} {odds : List Node} (hnd : odds.Nodup) :
    (buildAuxGraph g odds).Nodup := by
  unfold buildAuxGraph
  refine List.Nodup.filterMap ?_ (combos_nodup hnd)
  intro p p' e hep hep'
  rw [Option.mem_def] at hep hep'
  rcases Option.map_eq_some'.mp hep with ⟨pd, _, hpd⟩
  rcases Option.map_eq_some'.mp hep' with ⟨pd', _, hpd'⟩
  have h1 : p.1 = e.n1 := by rw [← hpd]
  have h2 : p.2 = e.n2 := by rw [← hpd]
  have h1' : p'.1 = e.n1 := by rw [← hpd']
  have h2' : p'.2 = e.n2 := by rw [← hpd']
  exact Prod.ext (by rw [h1, h1']) (by rw [h2, h2'])

theorem aux_pair_inj {g : Graph} {odds : List Node} :
    ∀ e ∈ buildAuxGraph g odds, ∀ e' ∈ buildAuxGraph g odds,
      e.n1 = e'.n1 → e.n2 = e'.n2 → e = e' := by
  intro e he e' he' h1 h2
  unfold buildAuxGraph at he he'
  rcases List.mem_filterMap.mp he with ⟨p, _, heq⟩
  rcases List.mem_filterMap.mp he' with ⟨p', _, heq'⟩
  rcases Option.map_eq_some'.mp heq with ⟨pd, hsp, hpd⟩
  rcases Option.map_eq_some'.mp heq' with ⟨pd', hsp', hpd'⟩
  have hp1 : p.1 = e.n1 := by rw [← hpd]
  have hp2 : p.2 = e.n2 := by rw [← hpd]
  have hp1' : p'.1 = e'.n1 := by rw [← hpd']
  have hp2' : p'.2 = e'.n2 := by rw [← hpd']
  have hpp : p = p' := Prod.ext (by rw [hp1, hp1', h1]) (by rw [hp2, hp2', h2])
  subst hpp
  rw [hsp] at hsp'
  have hpd'' : pd = pd' := Option.some.inj hsp'
  subst hpd''
  rw [← hpd, ← hpd']

theorem minWeightMatchingModel_spec (aux : List AuxEdge) :
    minWeightMatchingModel aux ∈
        aux.sublists.filter (fun m => decide (endpointsOf m).Nodup) ∧
      ∀ x ∈ aux.sublists.filter (fun m => decide (endpointsOf m).Nodup),
        ¬betterMatch x (minWeightMatchingModel aux) := by
  unfold minWeightMatchingModel
  rcases hc : aux.sublists.filter (fun m => decide (endpointsOf m).Nodup)
    with _ | ⟨c, cs⟩
  · have : ([] : List AuxEdge) ∈
        aux.sublists.filter (fun m => decide (endpointsOf m).Nodup) := by
      rw [List.mem_filter]
      exact ⟨List.mem_sublists.mpr (List.nil_sublist aux), by simp [endpointsOf]⟩
    rw [hc] at this
    exact absurd this (List.not_mem_nil _)
  · have hspec := foldl_pickBest_spec cs c
    exact ⟨hspec.1, fun x hx => hspec.2 x hx⟩

theorem length_endpointsOf (m : List AuxEdge) :
    (endpointsOf m).length = 2 * m.length := by
  unfold endpointsOf
  induction m with
  | nil => rfl
  | cons e m ih =>
    rw [List.flatMap_cons, List.length_append, ih, List.length_cons]
    simp
    omega

theorem mem_endpointsOf {e : AuxEdge} {m : List AuxEdge} (he : e ∈ m) :
    e.n1 ∈ endpointsOf m := by
  unfold endpointsOf
  exact List.mem_flatMap.mpr ⟨e, he, by simp⟩

theorem nodup_of_endpointsOf_nodup :
    ∀ {m : List AuxEdge}, (endpointsOf m).Nodup → m.Nodup := by
  intro m
  induction m with
  | nil => intro _; simp
  | cons e m ih =>
    intro h
    have hcons : endpointsOf (e :: m) = e.n1 :: e.n2 :: endpointsOf m := by
      unfold endpointsOf
      rw [List.flatMap_cons]
      rfl
    rw [hcons, List.nodup_cons, List.nodup_cons] at h
    rw [List.nodup_cons]
    refine ⟨?_, ih h.2.2⟩
    intro hem
    exact h.1 (List.mem_cons_of_mem _ (mem_endpointsOf hem))

theorem endpointsOf_eq_pairs_flatMap (m : List AuxEdge) :
    endpointsOf m =
      (m.map (fun e => (e.n1, e.n2))).flatMap (fun q => [q.1, q.2]) := by
  unfold endpointsOf
  induction m with
  | nil => rfl
  | cons e m ih =>
    rw [List.map_cons, List.flatMap_cons, List.flatMap_cons, ih]

theorem flatMap_map_pairs (M : List AuxEdge) :
    ((M.map (fun e => (e.n1, e.n2, e.path))).flatMap (fun t => [t.1, t.2.1])) =
      endpointsOf M := by
  unfold endpointsOf
  induction M with
  | nil => rfl
  | cons e M ih =>
    rw [List.map_cons, List.flatMap_cons, List.flatMap_cons, ih]

theorem matchWeight_perm {m m' : List AuxEdge} (h : m.Perm m') :
    matchWeight m = matchWeight m' := by
  unfold matchWeight
  exact (h.map AuxEdge.w).sum_eq

end CPP

namespace CPP

/-- C3: under the auxiliary graph's completeness (a shortest path exists for
every pair of odd nodes), the matcher produces a perfect matching of the
odd-node set — the output pairs' endpoints are a permutation of the odd
nodes — whose total weight is at most the total weight of every other
perfect matching over the auxiliary complete graph. -/
theorem C3_matching_optimal (g : Graph) (odds : List Node)
    (hnd : odds.Nodup) (hev : Even odds.length)
    (hcomp : ∀ p ∈ combos odds, (shortestPathU (toUndirected g) p.1 p.2).isSome) :
    ((findMinWeightMatching g odds).flatMap (fun t => [t.1, t.2.1])).Perm odds ∧
      ∀ m' : List AuxEdge,
        (∀ e ∈ m', e ∈ buildAuxGraph g odds) → (endpointsOf m').Nodup →
        (endpointsOf m').Perm odds →
        matchWeight (minWeightMatchingModel (buildAuxGraph g odds)) ≤
          matchWeight m' := by
  have hauxnd : (buildAuxGraph g odds).Nodup := buildAuxGraph_nodup hnd
  obtain ⟨hMmem, hMbest⟩ := minWeightMatchingModel_spec (buildAuxGraph g odds)
  rw [List.mem_filter, List.mem_sublists] at hMmem
  obtain ⟨hMsub, hMndB⟩ := hMmem
  have hMnd : (endpointsOf (minWeightMatchingModel (buildAuxGraph g odds))).Nodup := by
    simpa using hMndB
  -- the canonical perfect matching: pair up consecutive odd nodes
  have hcpsub : (buildAuxGraph g odds).filter
      (fun e => decide ((e.n1, e.n2) ∈ pairUp odds)) |>.Sublist (buildAuxGraph g odds) :=
    List.filter_sublist _
  have hcpnd := hcpsub.nodup hauxnd
  have hplnd : (((buildAuxGraph g odds).filter
      (fun e => decide ((e.n1, e.n2) ∈ pairUp odds))).map
        (fun e => (e.n1, e.n2))).Nodup := by
    refine List.Nodup.map_on ?_ hcpnd
    intro x hx y hy hxy
    exact aux_pair_inj x (hcpsub.subset hx) y (hcpsub.subset hy)
      (congrArg Prod.fst hxy) (congrArg Prod.snd hxy)
  have hplmem : ∀ q, q ∈ ((buildAuxGraph g odds).filter
      (fun e => decide ((e.n1, e.n2) ∈ pairUp odds))).map (fun e => (e.n1, e.n2)) ↔
        q ∈ pairUp odds := by
    intro q
    constructor
    · intro hq
      rcases List.mem_map.mp hq with ⟨e, he, rfl⟩
      have := List.of_mem_filter he
      simpa using this
    · intro hq
      rcases buildAuxGraph_complete hcomp q (pairUp_subset_combos q hq)
        with ⟨e, he, h1, h2⟩
      refine List.mem_map.mpr ⟨e, ?_, ?_⟩
      · refine List.mem_filter.mpr ⟨he, ?_⟩
        rw [h1, h2]
        simpa using hq
      · rw [h1, h2]
  have hplperm : (((buildAuxGraph g odds).filter
      (fun e => decide ((e.n1, e.n2) ∈ pairUp odds))).map
        (fun e => (e.n1, e.n2))).Perm (pairUp odds) :=
    (List.subperm_of_subset hplnd (fun q hq => (hplmem q).mp hq)).antisymm
      (List.subperm_of_subset (pairUp_nodup hnd) (fun q hq => (hplmem q).mpr hq))
  have hcpend : (endpointsOf ((buildAuxGraph g odds).filter
      (fun e => decide ((e.n1, e.n2) ∈ pairUp odds)))).Perm odds := by
    rw [endpointsOf_eq_pairs_flatMap]
    have hfl := hplperm.flatMap_right (fun q => [q.1, q.2])
    rw [pairUp_flatten hev] at hfl
    exact hfl
  have hcplen : 2 * ((buildAuxGraph g odds).filter
      (fun e => decide ((e.n1, e.n2) ∈ pairUp odds))).length = odds.length := by
    have h1 := length_endpointsOf ((buildAuxGraph g odds).filter
      (fun e => decide ((e.n1, e.n2) ∈ pairUp odds)))
    have h2 := hcpend.length_eq
    omega
  have hcpcand : (buildAuxGraph g odds).filter
      (fun e => decide ((e.n1, e.n2) ∈ pairUp odds)) ∈
        (buildAuxGraph g odds).sublists.filter
          (fun m => decide (endpointsOf m).Nodup) := by
    rw [List.mem_filter, List.mem_sublists]
    exact ⟨hcpsub, by simpa using (hcpend.nodup_iff.mpr hnd)⟩
  -- the matcher's output is perfect
  have hMendsub : endpointsOf (minWeightMatchingModel (buildAuxGraph g odds)) ⊆ odds := by
    intro x hx
    unfold endpointsOf at hx
    rcases List.mem_flatMap.mp hx with ⟨e, he, hxe⟩
    have hm := combos_mem (mem_buildAuxGraph_pair (hMsub.subset he))
    simp only [List.mem_cons, List.mem_singleton] at hxe
    rcases hxe with rfl | hxe
    · exact hm.1
    · rcases hxe with rfl | hxe
      · exact hm.2
      · exact absurd hxe (List.not_mem_nil x)
  have hMlenle : 2 * (minWeightMatchingModel (buildAuxGraph g odds)).length ≤
      odds.length := by
    have h1 := length_endpointsOf (minWeightMatchingModel (buildAuxGraph g odds))
    have h2 := length_le_of_nodup_subset hMnd hMendsub
    omega
  have hMlenge : ((buildAuxGraph g odds).filter
      (fun e => decide ((e.n1, e.n2) ∈ pairUp odds))).length ≤
        (minWeightMatchingModel (buildAuxGraph g odds)).length := by
    have hb := hMbest _ hcpcand
    unfold betterMatch at hb
    push_neg at hb
    exact hb.1
  have hMlen : 2 * (minWeightMatchingModel (buildAuxGraph g odds)).length =
      odds.length := by omega
  have hMperm : (endpointsOf (minWeightMatchingModel (buildAuxGraph g odds))).Perm
      odds := by
    refine List.Subperm.perm_of_length_le (List.subperm_of_subset hMnd hMendsub) ?_
    rw [length_endpointsOf]
    omega
  constructor
  · unfold findMinWeightMatching
    rw [flatMap_map_pairs]
    exact hMperm
  · intro m' hm'sub hm'nd hm'perm
    have hcsub : ((buildAuxGraph g odds).filter (fun e => decide (e ∈ m'))).Sublist
        (buildAuxGraph g odds) := List.filter_sublist _
    have hcnd := hcsub.nodup hauxnd
    have hm'ndup : m'.Nodup := nodup_of_endpointsOf_nodup hm'nd
    have hcmem : ∀ x, x ∈ (buildAuxGraph g odds).filter (fun e => decide (e ∈ m')) ↔
        x ∈ m' := by
      intro x
      rw [List.mem_filter]
      constructor
      · intro ⟨_, hx⟩
        simpa using hx
      · intro hx
        exact ⟨hm'sub x hx, by simpa using hx⟩
    have hcperm : ((buildAuxGraph g odds).filter (fun e => decide (e ∈ m'))).Perm m' :=
      (List.subperm_of_subset hcnd (fun x hx => (hcmem x).mp hx)).antisymm
        (List.subperm_of_subset hm'ndup (fun x hx => (hcmem x).mpr hx))
    have hcend : (endpointsOf ((buildAuxGraph g odds).filter
        (fun e => decide (e ∈ m')))).Perm (endpointsOf m') := by
      unfold endpointsOf
      exact hcperm.flatMap_right _
    have hccand : (buildAuxGraph g odds).filter (fun e => decide (e ∈ m')) ∈
        (buildAuxGraph g odds).sublists.filter
          (fun m => decide (endpointsOf m).Nodup) := by
      rw [List.mem_filter, List.mem_sublists]
      exact ⟨hcsub, by simpa using (hcend.nodup_iff.mpr hm'nd)⟩
    have hclen : ((buildAuxGraph g odds).filter (fun e => decide (e ∈ m'))).length =
        (minWeightMatchingModel (buildAuxGraph g odds)).length := by
      have h1 := length_endpointsOf ((buildAuxGraph g odds).filter
        (fun e => decide (e ∈ m')))
      have h2 := (hcend.trans hm'perm).length_eq
      omega
    have hb := hMbest _ hccand
    unfold betterMatch at hb
    push_neg at hb
    calc matchWeight (minWeightMatchingModel (buildAuxGraph g odds))
        ≤ matchWeight ((buildAuxGraph g odds).filter (fun e => decide (e ∈ m'))) :=
          hb.2 hclen.symm
      _ = matchWeight m' := matchWeight_perm hcperm

end CPP

namespace CPP

theorem C3_witness :
    ([1, 3] : List Node).Nodup ∧ Even ([1, 3] : List Node).length ∧
      (((findMinWeightMatching pathGraph [1, 3]).flatMap
          (fun t => [t.1, t.2.1])).Perm [1, 3] ∧
        ∀ m' : List AuxEdge,
          (∀ e ∈ m', e ∈ buildAuxGraph pathGraph [1, 3]) →
          (endpointsOf m').Nodup → (endpointsOf m').Perm [1, 3] →
          matchWeight (minWeightMatchingModel (buildAuxGraph pathGraph [1, 3])) ≤
            matchWeight m') :=
  ⟨by decide, by decide,
    C3_matching_optimal pathGraph [1, 3] (by decide) (by decide) (by decide)⟩

end CPP

namespace CPP

/-! ### C10: the DFS fallback emits a spanning tree of the reachable
component -/

theorem length_filter_lt_of_ssubset {nodes V V' : List Node} (hsub : V ⊆ V')
    {x : Node} (hx : x ∈ nodes) (hxV : x ∉ V) (hxV' : x ∈ V') :
    (nodes.filter (fun y => decide (y ∉ V'))).length <
      (nodes.filter (fun y => decide (y ∉ V))).length := by
  induction nodes with
  | nil => simp at hx
  | cons a nodes ih =>
    have himp : ∀ y : Node, y ∉ V' → y ∉ V := fun y hy hyV => hy (hsub hyV)
    have hmono : (nodes.filter (fun y => decide (y ∉ V'))).length ≤
        (nodes.filter (fun y => decide (y ∉ V))).length := by
      rw [← List.countP_eq_length_filter, ← List.countP_eq_length_filter]
      refine List.countP_mono_left ?_
      intro y _ hy
      rw [decide_eq_true_eq] at hy
      exact decide_eq_true (himp y hy)
    rcases List.mem_cons.mp hx with rfl | hx
    · rw [List.filter_cons, List.filter_cons]
      have h1 : decide (x ∉ V') = false := by simp [hxV']
      have h2 : decide (x ∉ V) = true := by simp [hxV]
      rw [h1, h2]
      simp only [Bool.false_eq_true, if_false, if_true, List.length_cons]
      omega
    · have hstep := ih hx
      rw [List.filter_cons, List.filter_cons]
      by_cases ha' : a ∈ V'
      · have h1 : decide (a ∉ V') = false := by simp [ha']
        rw [h1]
        simp only [Bool.false_eq_true, if_false]
        by_cases ha : a ∈ V
        · have h2 : decide (a ∉ V) = false := by simp [ha]
          rw [h2]
          simp only [Bool.false_eq_true, if_false]
          exact hstep
        · have h2 : decide (a ∉ V) = true := by simp [ha]
          rw [h2]
          simp only [if_true, List.length_cons]
          omega
      · have ha : a ∉ V := himp a ha'
        have h1 : decide (a ∉ V') = true := by simp [ha']
        have h2 : decide (a ∉ V) = true := by simp [ha]
        rw [h1, h2]
        simp only [if_true, List.length_cons]
        omega

/-- The per-call contract of the `dfs` helper: starting at an unvisited node
with fuel bounding the number of unvisited nodes, it appends the entered
node and then exactly the freshly visited nodes; every emitted edge targets
one fresh node (in order), runs along the graph from an already-visited
source, the fresh nodes are reachable from the entered node, and every
visited node's neighbourhood ends up visited (closure). -/
def DfsPost (U : UGraph) (node : Node) (vis : List Node)
    (es : List (Node × Node)) (R : List Node × List (Node × Node)) : Prop :=
  ∃ nv ne,
    R.1 = (vis ++ [node]) ++ nv ∧
    R.2 = es ++ ne ∧
    ne.map Prod.snd = nv ∧
    R.1.Nodup ∧ R.1 ⊆ U.nodes ∧
    (∀ p ∈ ne, p.2 ∈ adjU U p.1 ∧ p.1 ∈ R.1) ∧
    (∀ x ∈ node :: nv, Reaches (adjU U) node x) ∧
    (∀ x ∈ node :: nv, ∀ y ∈ adjU U x, y ∈ R.1)

end CPP

namespace CPP

/-- Invariant through the neighbour fold of one `dfs` call (the entered
node's own closure is only complete once the whole fold has run). -/
def DfsFoldInv (U : UGraph) (node : Node) (vis : List Node)
    (es : List (Node × Node)) (st : List Node × List (Node × Node)) : Prop :=
  ∃ nv ne,
    st.1 = (vis ++ [node]) ++ nv ∧
    st.2 = es ++ ne ∧
    ne.map Prod.snd = nv ∧
    st.1.Nodup ∧ st.1 ⊆ U.nodes ∧
    (∀ p ∈ ne, p.2 ∈ adjU U p.1 ∧ p.1 ∈ st.1) ∧
    (∀ x ∈ nv, Reaches (adjU U) node x) ∧
    (∀ x ∈ nv, ∀ y ∈ adjU U x, y ∈ st.1)

theorem dfsFold_inv (U : UGraph) (hwf : WFu U) (f : Nat) (node : Node)
    (vis : List Node) (es : List (Node × Node))
    (hnode : node ∈ U.nodes) (hnvis : node ∉ vis)
    (hfuel : (U.nodes.filter (fun y => decide (y ∉ vis))).length ≤ f + 1)
    (hIH : ∀ (nodeA : Node) (visA : List Node) (esA : List (Node × Node)),
      nodeA ∈ U.nodes → nodeA ∉ visA → visA ⊆ U.nodes → visA.Nodup →
      (U.nodes.filter (fun y => decide (y ∉ visA))).length ≤ f →
      DfsPost U nodeA visA esA (dfsGo U f nodeA (visA, esA))) :
    ∀ (nbs : List Node), nbs ⊆ adjU U node →
      ∀ st, DfsFoldInv U node vis es st →
        DfsFoldInv U node vis es (nbs.foldl
          (fun st' nb => if nb ∈ st'.1 then st'
            else dfsGo U f nb (st'.1, st'.2 ++ [(node, nb)])) st) ∧
        (∀ y ∈ st.1, y ∈ (nbs.foldl
          (fun st' nb => if nb ∈ st'.1 then st'
            else dfsGo U f nb (st'.1, st'.2 ++ [(node, nb)])) st).1) ∧
        (∀ y ∈ nbs, y ∈ (nbs.foldl
          (fun st' nb => if nb ∈ st'.1 then st'
            else dfsGo U f nb (st'.1, st'.2 ++ [(node, nb)])) st).1) := by
  intro nbs
  induction nbs with
  | nil =>
    intro _ st hinv
    exact ⟨hinv, fun y hy => hy, by simp⟩
  | cons nb nbs ih =>
    intro hsub st hinv
    simp only [List.foldl_cons]
    by_cases hmem : nb ∈ st.1
    · rw [if_pos hmem]
      obtain ⟨hinv', hmono', hnbs'⟩ :=
        ih (fun y hy => hsub (List.mem_cons_of_mem _ hy)) st hinv
      refine ⟨hinv', hmono', ?_⟩
      intro y hy
      rcases List.mem_cons.mp hy with rfl | hy
      · exact hmono' y hmem
      · exact hnbs' y hy
    · rw [if_neg hmem]
      obtain ⟨nv, ne, h1, h2, h3, h4, h5, h6, h7, h8⟩ := hinv
      have hnbadj : nb ∈ adjU U node := hsub (List.mem_cons_self _ _)
      have hnbU : nb ∈ U.nodes := adjU_closed hwf node hnode nb hnbadj
      have hnodest : node ∈ st.1 := by
        rw [h1]
        exact List.mem_append_left _ (List.mem_append_right _ (List.mem_singleton.mpr rfl))
      have hvissub : vis ⊆ st.1 := by
        intro y hy
        rw [h1]
        exact List.mem_append_left _ (List.mem_append_left _ hy)
      have hfuel' : (U.nodes.filter (fun y => decide (y ∉ st.1))).length ≤ f := by
        have hlt := length_filter_lt_of_ssubset hvissub hnode hnvis hnodest
        omega
      have hpost := hIH nb st.1 (st.2 ++ [(node, nb)]) hnbU hmem h5 h4 hfuel'
      obtain ⟨nv2, ne2, g1, g2, g3, g4, g5, g6, g7, g8⟩ := hpost
      have hmonoSt : ∀ y ∈ st.1, y ∈ (dfsGo U f nb (st.1, st.2 ++ [(node, nb)])).1 := by
        intro y hy
        rw [g1]
        exact List.mem_append_left _ (List.mem_append_left _ hy)
      have hnbIn : nb ∈ (dfsGo U f nb (st.1, st.2 ++ [(node, nb)])).1 := by
        rw [g1]
        exact List.mem_append_left _ (List.mem_append_right _ (List.mem_singleton.mpr rfl))
      have hinv'' : DfsFoldInv U node vis es (dfsGo U f nb (st.1, st.2 ++ [(node, nb)])) := by
        refine ⟨nv ++ nb :: nv2, ne ++ (node, nb) :: ne2, ?_, ?_, ?_, g4, g5, ?_, ?_, ?_⟩
        · rw [g1, h1]
          simp [List.append_assoc]
        · rw [g2, h2]
          simp [List.append_assoc]
        · rw [List.map_append, List.map_cons, h3, g3]
        · intro p hp
          rcases List.mem_append.mp hp with hp | hp
          · exact ⟨(h6 p hp).1, hmonoSt _ (h6 p hp).2⟩
          · rcases List.mem_cons.mp hp with rfl | hp
            · exact ⟨hnbadj, hmonoSt _ hnodest⟩
            · exact g6 p hp
        · intro x hx
          rcases List.mem_append.mp hx with hx | hx
          · exact h7 x hx
          · have hstep : Reaches (adjU U) node nb :=
              Relation.ReflTransGen.single hnbadj
            rcases List.mem_cons.mp hx with rfl | hx
            · exact hstep
            · exact hstep.trans (g7 x (List.mem_cons_of_mem _ hx))
        · intro x hx y hy
          rcases List.mem_append.mp hx with hx | hx
          · exact hmonoSt y (h8 x hx y hy)
          · exact g8 x hx y hy
      obtain ⟨hinv', hmono', hnbs'⟩ :=
        ih (fun y hy => hsub (List.mem_cons_of_mem _ hy)) _ hinv''
      refine ⟨hinv', ?_, ?_⟩
      · intro y hy
        exact hmono' y (hmonoSt y hy)
      · intro y hy
        rcases List.mem_cons.mp hy with rfl | hy
        · exact hmono' y hnbIn
        · exact hnbs' y hy

theorem dfsGo_succ (U : UGraph) (f : Nat) (node : Node) (vis : List Node)
    (es : List (Node × Node)) :
    dfsGo U (f + 1) node (vis, es) = (adjU U node).foldl
      (fun st' nb => if nb ∈ st'.1 then st'
        else dfsGo U f nb (st'.1, st'.2 ++ [(node, nb)])) (vis ++ [node], es) := rfl

theorem dfsGo_spec (U : UGraph) (hwf : WFu U) :
    ∀ (f : Nat) (node : Node) (vis : List Node) (es : List (Node × Node)),
      node ∈ U.nodes → node ∉ vis → vis ⊆ U.nodes → vis.Nodup →
      (U.nodes.filter (fun y => decide (y ∉ vis))).length ≤ f →
      DfsPost U node vis es (dfsGo U f node (vis, es)) := by
  intro f
  induction f with
  | zero =>
    intro node vis es hnode hnvis _ _ hfuel
    exfalso
    have hmem : node ∈ U.nodes.filter (fun y => decide (y ∉ vis)) :=
      List.mem_filter.mpr ⟨hnode, by simpa using hnvis⟩
    have := List.ne_nil_of_mem hmem
    have := List.length_pos.mpr this
    omega
  | succ f ihf =>
    intro node vis es hnode hnvis hvsub hvnd hfuel
    rw [dfsGo_succ]
    have hinv0 : DfsFoldInv U node vis es (vis ++ [node], es) := by
      refine ⟨[], [], by simp, by simp, rfl, ?_, ?_, by simp, by simp, by simp⟩
      · show (vis ++ [node]).Nodup
        rw [List.nodup_append]
        refine ⟨hvnd, List.nodup_singleton node, ?_⟩
        intro a ha hb
        rw [List.mem_singleton] at hb
        exact hnvis (hb ▸ ha)
      · show (vis ++ [node]) ⊆ U.nodes
        intro y hy
        rcases List.mem_append.mp hy with hy | hy
        · exact hvsub hy
        · rw [List.mem_singleton] at hy
          exact hy ▸ hnode
    obtain ⟨hinv, hmono, hnbs⟩ := dfsFold_inv U hwf f node vis es hnode hnvis hfuel
      ihf (adjU U node) (fun y hy => hy) (vis ++ [node], es) hinv0
    obtain ⟨nv, ne, h1, h2, h3, h4, h5, h6, h7, h8⟩ := hinv
    refine ⟨nv, ne, h1, h2, h3, h4, h5, h6, ?_, ?_⟩
    · intro x hx
      rcases List.mem_cons.mp hx with rfl | hx
      · exact Relation.ReflTransGen.refl
      · exact h7 x hx
    · intro x hx y hy
      rcases List.mem_cons.mp hx with rfl | hx
      · exact hnbs y hy
      · exact h8 x hx y hy

end CPP

namespace CPP

theorem countP_le_one_of_nodup_map_snd {ne : List (Node × Node)}
    (hnd : (ne.map Prod.snd).Nodup) (v : Node) :
    ne.countP (fun p => p.2 == v) ≤ 1 := by
  have h1 : ne.countP (fun p => p.2 == v)
      = (ne.map Prod.snd).countP (fun x => x == v) := by
    rw [List.countP_map]
    rfl
  have h2 := List.nodup_iff_count_le_one.mp hnd v
  rw [h1]
  simpa [List.count] using h2

/-- C10: the DFS fallback of `_find_euler_circuit` emits exactly the edges of
a spanning tree (rooted at `s`) of the component reachable from `s`: every
node is the target of at most one emitted edge, no emitted edge repeats, each
emitted edge is a real adjacency between reachable nodes whose target is
never the start node, and the number of emitted edges is one less than the
number of reachable nodes. -/
theorem C10_dfs_spanning (U : UGraph) (hwf : WFu U) (s : Node)
    (hs : s ∈ U.nodes) :
    (∀ v : Node, (dfsEdges U s).countP (fun p => p.2 == v) ≤ 1) ∧
    (dfsEdges U s).Nodup ∧
    (∀ p ∈ dfsEdges U s, p.2 ∈ adjU U p.1 ∧ p.2 ≠ s ∧
      p.1 ∈ reachableFrom U.nodes (adjU U) s ∧
      p.2 ∈ reachableFrom U.nodes (adjU U) s) ∧
    (dfsEdges U s).length + 1 = (reachableFrom U.nodes (adjU U) s).length ∧
    (∀ v, v ∈ reachableFrom U.nodes (adjU U) s ↔ Reaches (adjU U) s v) := by
  have hpost := dfsGo_spec U hwf U.nodes.length s [] [] hs (by simp)
    (by intro y hy; cases hy) List.nodup_nil (by simp)
  obtain ⟨nv, ne, h1, h2, h3, h4, h5, h6, h7, h8⟩ := hpost
  simp only [List.nil_append] at h1 h2
  have hiff := mem_reachableFrom_iff U.nodes (adjU U) (adjU_closed hwf) s hs
  have hcons : (dfsGo U U.nodes.length s ([], [])).1 = s :: nv := by
    rw [h1]; rfl
  rw [hcons] at h4 h5 h6 h8
  have hnvnd : nv.Nodup := (List.nodup_cons.mp h4).2
  have hsnv : s ∉ nv := (List.nodup_cons.mp h4).1
  -- the visited list and the reachable set contain the same nodes
  have hsetF : ∀ x ∈ s :: nv, x ∈ reachableFrom U.nodes (adjU U) s := by
    intro x hx
    exact (hiff x).mpr (h7 x hx)
  have hsetB : ∀ x, Reaches (adjU U) s x → x ∈ s :: nv := by
    intro x hx
    induction hx with
    | refl => exact List.mem_cons_self _ _
    | tail hab hbc ih => exact h8 _ ih _ hbc
  have hperm : (s :: nv).Perm (reachableFrom U.nodes (adjU U) s) := by
    rw [List.perm_ext_iff_of_nodup h4
      (reachableFrom_nodup U.nodes (adjU U) (adjU_closed hwf) s hs)]
    intro a
    exact ⟨fun ha => hsetF a ha, fun ha => hsetB a ((hiff a).mp ha)⟩
  have hE : dfsEdges U s = ne := by
    unfold dfsEdges
    rw [h2]
  refine ⟨?_, ?_, ?_, ?_, hiff⟩
  · intro v
    rw [hE]
    exact countP_le_one_of_nodup_map_snd (h3 ▸ hnvnd) v
  · rw [hE]
    exact (h3 ▸ hnvnd).of_map Prod.snd
  · intro p hp
    rw [hE] at hp
    have hsnd : p.2 ∈ nv := by
      rw [← h3]
      exact List.mem_map_of_mem Prod.snd hp
    refine ⟨(h6 p hp).1, ?_, ?_, ?_⟩
    · intro hps
      exact hsnv (hps ▸ hsnd)
    · exact hsetF _ (h6 p hp).2
    · exact hsetF _ (List.mem_cons_of_mem _ hsnd)
  · rw [hE]
    have hlen : ne.length = nv.length := by
      rw [← h3, List.length_map]
    rw [hlen, ← hperm.length_eq]
    rfl

theorem C10_witness :
    WFu (toUndirected pathGraph) ∧ 1 ∈ (toUndirected pathGraph).nodes ∧
      ((∀ v : Node,
          (dfsEdges (toUndirected pathGraph) 1).countP (fun p => p.2 == v) ≤ 1) ∧
        (dfsEdges (toUndirected pathGraph) 1).Nodup ∧
        (∀ p ∈ dfsEdges (toUndirected pathGraph) 1,
          p.2 ∈ adjU (toUndirected pathGraph) p.1 ∧ p.2 ≠ 1 ∧
          p.1 ∈ reachableFrom (toUndirected pathGraph).nodes
            (adjU (toUndirected pathGraph)) 1 ∧
          p.2 ∈ reachableFrom (toUndirected pathGraph).nodes
            (adjU (toUndirected pathGraph)) 1) ∧
        (dfsEdges (toUndirected pathGraph) 1).length + 1 =
          (reachableFrom (toUndirected pathGraph).nodes
            (adjU (toUndirected pathGraph)) 1).length ∧
        (∀ v, v ∈ reachableFrom (toUndirected pathGraph).nodes
            (adjU (toUndirected pathGraph)) 1 ↔
          Reaches (adjU (toUndirected pathGraph)) 1 v)) :=
  ⟨by decide, by decide,
    C10_dfs_spanning (toUndirected pathGraph) (by decide) 1 (by decide)⟩

end CPP

namespace CPP

/-! ### C1: correctness of the Hierholzer circuit generator -/

/-- Edges currently held on the vertex stack (the edge stored with each
entry is the edge used to arrive at its vertex). -/
def stackE (st : List (Node × Option UEdge)) : List UEdge := st.filterMap Prod.snd

/-- Edges already emitted into the output. -/
def outE (out : List (Node × Node × Option UEdge)) : List UEdge :=
  out.filterMap (fun t => t.2.2)

/-- The edge held in the `last_vertex`/`last_key` slot. -/
def lastE : Option (Node × Option UEdge) → List UEdge
  | none => []
  | some (_, k) => k.toList

/-- The emitted `(from, to)` pairs. -/
def outPairs (out : List (Node × Node × Option UEdge)) : List (Node × Node) :=
  out.map (fun t => (t.1, t.2.1))

/-- Does the step `p` traverse the unordered pair `{a, b}`? -/
def pairMatch (a b : Node) (p : Node × Node) : Bool :=
  (p.1 == a && p.2 == b) || (p.1 == b && p.2 == a)

def markCount (m1 m2 x : Node) : Nat :=
  (if m1 = x then 1 else 0) + (if m2 = x then 1 else 0)

/-- Degrees of the remaining edges are odd exactly at the (multiset of)
marked vertices. -/
def ParityM (es : List UEdge) (m1 m2 : Node) : Prop :=
  ∀ x, uDegL es x % 2 = markCount m1 m2 x % 2

/-- The vertex stack is a walk: the bottom entry is `(src, none)` and every
other entry's edge joins its vertex to the vertex of the entry below. -/
def StackOK (src : Node) : List (Node × Option UEdge) → Prop
  | [] => True
  | [(v, k)] => v = src ∧ k = none
  | (v, some e) :: (u, k) :: rest =>
      ((e.a = u ∧ e.b = v) ∨ (e.a = v ∧ e.b = u)) ∧ StackOK src ((u, k) :: rest)
  | (_, none) :: _ :: _ => False

/-- Every emitted triple carries the edge joining its two vertices. -/
def OutOK (out : List (Node × Node × Option UEdge)) : Prop :=
  ∀ t ∈ out, ∃ e, t.2.2 = some e ∧
    ((e.a = t.1 ∧ e.b = t.2.1) ∨ (e.a = t.2.1 ∧ e.b = t.1))

/-- `l` is a chain of steps leading from `a` to `b`. -/
def ChainFT : List (Node × Node) → Node → Node → Prop
  | [], a, b => a = b
  | p :: rest, a, b => p.1 = a ∧ ChainFT rest p.2 b

def topv : List (Node × Option UEdge) → Node
  | [] => 0
  | (v, _) :: _ => v

/-- Invariant of the `_multigraph_eulerian_circuit` loop, covering the
running phases (no pop yet / pending emission) and the finished state. -/
def EulInv (U : UGraph) (src : Node) (S : EulSt) : Prop :=
  (∀ p : UEdge → Bool, U.edges.countP p =
    S.rem.countP p + (stackE S.stack).countP p +
    (outE S.out).countP p + (lastE S.last).countP p) ∧
  OutOK S.out ∧
  StackOK src S.stack ∧
  match S.stack, S.last with
  | [], some (v, none) => v = src ∧ ChainFT (outPairs S.out) src src
  | [], _ => False
  | _ :: _, none => S.out = [] ∧ ParityM S.rem src (topv S.stack)
  | _ :: _, some (lv, some f) =>
      (f.a = lv ∨ f.b = lv) ∧ ChainFT (outPairs S.out) src lv ∧
      ParityM S.rem (otherEnd f lv) (topv S.stack)
  | _ :: _, some (_, none) => False

theorem markCount_shift (m c w x : Node) :
    (markCount m c x + markCount c w x) % 2 = markCount m w x % 2 := by
  unfold markCount
  by_cases h1 : m = x <;> by_cases h2 : c = x <;> by_cases h3 : w = x <;>
    simp [h1, h2, h3]

theorem otherEnd_endpoint (e : UEdge) (v : Node) :
    otherEnd e v = e.a ∨ otherEnd e v = e.b := by
  unfold otherEnd
  split
  · exact Or.inr rfl
  · exact Or.inl rfl

theorem uIncident_iff (e : UEdge) (v : Node) :
    uIncident e v = true ↔ (e.a = v ∨ e.b = v) := by
  unfold uIncident
  simp

theorem uDegL_erase {es : List UEdge} {e : UEdge} (he : e ∈ es) (x : Node) :
    uDegL es x = uDegL (es.erase e) x +
      ((if e.a = x then 1 else 0) + (if e.b = x then 1 else 0)) := by
  have hp : es.Perm (e :: es.erase e) := List.perm_cons_erase he
  unfold uDegL
  rw [hp.countP_eq, hp.countP_eq, List.countP_cons, List.countP_cons]
  by_cases h1 : e.a = x <;> by_cases h2 : e.b = x <;> simp [h1, h2] <;> omega

theorem uDegL_pos_of_incident {es : List UEdge} {e : UEdge} (he : e ∈ es)
    {x : Node} (hx : e.a = x ∨ e.b = x) : 0 < uDegL es x := by
  unfold uDegL
  rcases hx with hx | hx
  · have : 0 < es.countP (fun e => e.a == x) :=
      List.countP_pos_iff.mpr ⟨e, he, by simp [hx]⟩
    omega
  · have : 0 < es.countP (fun e => e.b == x) :=
      List.countP_pos_iff.mpr ⟨e, he, by simp [hx]⟩
    omega

theorem uDegL_zero_of_firstIncident_none {es : List UEdge} {v : Node}
    (h : firstIncident es v = none) : uDegL es v = 0 := by
  have hall := List.find?_eq_none.mp h
  unfold uDegL
  have h1 : es.countP (fun e => e.a == v) = 0 := by
    rw [List.countP_eq_zero]
    intro e he
    have := hall e he
    simp [uIncident] at this
    simp [this.1]
  have h2 : es.countP (fun e => e.b == v) = 0 := by
    rw [List.countP_eq_zero]
    intro e he
    have := hall e he
    simp [uIncident] at this
    simp [this.2]
  omega

theorem firstIncident_some {es : List UEdge} {v : Node} {e : UEdge}
    (h : firstIncident es v = some e) :
    e ∈ es ∧ (e.a = v ∨ e.b = v) := by
  refine ⟨List.mem_of_find?_eq_some h, ?_⟩
  have := List.find?_some h
  exact (uIncident_iff e v).mp this

theorem runE_stack_nil {S : EulSt} (h : S.stack = []) :
    ∀ n, runE n S = S := by
  intro n
  cases n with
  | zero => rfl
  | succ n => simp [runE, h]

theorem chainFT_snoc {l : List (Node × Node)} {a b : Node}
    (h : ChainFT l a b) (c : Node) : ChainFT (l ++ [(b, c)]) a c := by
  induction l generalizing a with
  | nil => exact ⟨h.symm, rfl⟩
  | cons p rest ih => exact ⟨h.1, ih h.2⟩

theorem chainFT_get {l : List (Node × Node)} {a b : Node}
    (h : ChainFT l a b) :
    ∀ i (hi : i + 1 < l.length),
      (l.get ⟨i, Nat.lt_of_succ_lt hi⟩).2 = (l.get ⟨i + 1, hi⟩).1 := by
  induction l generalizing a with
  | nil => intro i hi; simp at hi
  | cons p rest ih =>
    intro i hi
    cases i with
    | zero =>
      cases rest with
      | nil => simp at hi
      | cons q rest' => exact (h.2.1).symm
    | succ i =>
      have hi' : i + 1 < rest.length := by
        simpa using hi
      exact ih h.2 i hi'

theorem chainFT_head_last {l : List (Node × Node)} {a b : Node}
    (h : ChainFT l a b) (hne : l ≠ []) :
    (l.head hne).1 = a ∧ (l.getLast hne).2 = b := by
  induction l generalizing a with
  | nil => exact absurd rfl hne
  | cons p rest ih =>
    refine ⟨h.1, ?_⟩
    cases rest with
    | nil => exact h.2
    | cons q rest' =>
      rw [List.getLast_cons (by simp)]
      exact (ih h.2 (by simp)).2

theorem outE_length_of_OutOK {out : List (Node × Node × Option UEdge)}
    (h : OutOK out) : (outE out).length = out.length := by
  induction out with
  | nil => rfl
  | cons t rest ih =>
    obtain ⟨e, he, _⟩ := h t (List.mem_cons_self _ _)
    have hrest : OutOK rest := fun t' ht' => h t' (List.mem_cons_of_mem _ ht')
    unfold outE
    rw [List.filterMap_cons, he]
    simpa [outE] using ih hrest

theorem countP_outPairs_eq_outE {out : List (Node × Node × Option UEdge)}
    (h : OutOK out) (a b : Node) :
    (outPairs out).countP (pairMatch a b) =
      (outE out).countP (fun e => uMatch e a b) := by
  induction out with
  | nil => rfl
  | cons t rest ih =>
    obtain ⟨e, he, hend⟩ := h t (List.mem_cons_self _ _)
    have hrest : OutOK rest := fun t' ht' => h t' (List.mem_cons_of_mem _ ht')
    unfold outPairs outE
    rw [List.map_cons, List.filterMap_cons, he, List.countP_cons, List.countP_cons]
    have hih := ih hrest
    unfold outPairs outE at hih
    rw [hih]
    have hpred : pairMatch a b (t.1, t.2.1) = uMatch e a b := by
      rcases hend with ⟨h1, h2⟩ | ⟨h1, h2⟩
      · simp [pairMatch, uMatch, h1, h2]
      · simp [pairMatch, uMatch, h1, h2]
        rw [Bool.and_comm (t.1 == b), Bool.and_comm (t.1 == a), Bool.or_comm]
    rw [hpred]

end CPP

namespace CPP

theorem countP_erase_of_mem {es : List UEdge} {e : UEdge} (he : e ∈ es)
    (p : UEdge → Bool) :
    es.countP p = (es.erase e).countP p + (if p e then 1 else 0) := by
  have hp := List.perm_cons_erase he
  rw [hp.countP_eq, List.countP_cons]

theorem markCount_self_mod (m x : Node) : markCount m m x % 2 = 0 := by
  unfold markCount
  by_cases h : m = x <;> simp [h]

theorem otherEnd_endpoints_disj (e : UEdge) {v : Node}
    (h : e.a = v ∨ e.b = v) :
    (e.a = v ∧ e.b = otherEnd e v) ∨ (e.a = otherEnd e v ∧ e.b = v) := by
  unfold otherEnd
  by_cases ha : e.a = v
  · rw [if_pos ha]
    exact Or.inl ⟨ha, rfl⟩
  · rw [if_neg ha]
    exact Or.inr ⟨rfl, h.resolve_left ha⟩

theorem otherEnd_of_endpoints {e : UEdge} {u v : Node}
    (h : (e.a = u ∧ e.b = v) ∨ (e.a = v ∧ e.b = u)) : otherEnd e v = u := by
  unfold otherEnd
  rcases h with ⟨h1, h2⟩ | ⟨h1, h2⟩
  · by_cases hav : e.a = v
    · rw [if_pos hav]
      rw [h1] at hav
      rw [h2, ← hav]
    · rw [if_neg hav, h1]
  · rw [if_pos h1, h2]

theorem ParityM_step {es : List UEdge} {e : UEdge} (he : e ∈ es) {cv : Node}
    (hinc : e.a = cv ∨ e.b = cv) (m : Node) (hp : ParityM es m cv) :
    ParityM (es.erase e) m (otherEnd e cv) := by
  intro x
  have hcw : (if e.a = x then 1 else 0) + (if e.b = x then 1 else 0) =
      markCount cv (otherEnd e cv) x := by
    rcases otherEnd_endpoints_disj e hinc with ⟨h1, h2⟩ | ⟨h1, h2⟩
    · rw [h1, h2]
      simp [markCount]
    · rw [h1, h2]
      simp [markCount]
      omega
  have hd := uDegL_erase he x
  have hshift := markCount_shift m cv (otherEnd e cv) x
  have hpx := hp x
  omega

theorem ParityM_forced {es : List UEdge} {m cv : Node} (hp : ParityM es m cv)
    (hdeg : uDegL es cv = 0) : m = cv := by
  by_contra hne
  have h := hp cv
  unfold markCount at h
  rw [if_neg hne, if_pos rfl] at h
  omega

theorem ParityM_even_of_self {es : List UEdge} {m : Node}
    (hp : ParityM es m m) (u : Node) : ParityM es u u := by
  intro x
  have h1 := hp x
  have h2 := markCount_self_mod m x
  have h3 := markCount_self_mod u x
  omega

theorem stepE_push {rem : List UEdge} {stack : List (Node × Option UEdge)}
    {out : List (Node × Node × Option UEdge)} {last : Option (Node × Option UEdge)}
    {cv : Node} {ck : Option UEdge} {rest : List (Node × Option UEdge)} {e : UEdge}
    (hstack : stack = (cv, ck) :: rest) (hfi : firstIncident rem cv = some e) :
    stepE ⟨rem, stack, out, last⟩ =
      ⟨rem.erase e, (otherEnd e cv, some e) :: (cv, ck) :: rest, out, last⟩ := by
  subst hstack
  simp [stepE, hfi]

theorem stepE_pop {rem : List UEdge} {stack : List (Node × Option UEdge)}
    {out : List (Node × Node × Option UEdge)} {last : Option (Node × Option UEdge)}
    {cv : Node} {ck : Option UEdge} {rest : List (Node × Option UEdge)}
    (hstack : stack = (cv, ck) :: rest) (hfi : firstIncident rem cv = none) :
    stepE ⟨rem, stack, out, last⟩ =
      ⟨rem, rest,
        (match last with
          | none => out
          | some (lv, lk) => out ++ [(lv, cv, lk)]),
        some (cv, ck)⟩ := by
  subst hstack
  simp [stepE, hfi]

end CPP

namespace CPP

theorem stackE_cons_some (v : Node) (e : UEdge) (st : List (Node × Option UEdge)) :
    stackE ((v, some e) :: st) = e :: stackE st := rfl

theorem stackE_cons_none (v : Node) (st : List (Node × Option UEdge)) :
    stackE ((v, none) :: st) = stackE st := rfl

theorem outE_append_some (out : List (Node × Node × Option UEdge)) (lv cv : Node)
    (f : UEdge) : outE (out ++ [(lv, cv, some f)]) = outE out ++ [f] := by
  simp [outE]

end CPP

namespace CPP

theorem stackE_nil : stackE [] = ([] : List UEdge) := rfl

theorem lastE_none : lastE none = ([] : List UEdge) := rfl

theorem lastE_some_none (v : Node) : lastE (some (v, none)) = ([] : List UEdge) := rfl

theorem lastE_some_some (v : Node) (e : UEdge) : lastE (some (v, some e)) = [e] := rfl

/-- One loop iteration preserves the invariant whenever the stack is
nonempty. -/
theorem stepE_inv (U : UGraph) (src : Node) (S : EulSt) (hS : EulInv U src S)
    {cv : Node} {ck : Option UEdge} {rest : List (Node × Option UEdge)}
    (hstack : S.stack = (cv, ck) :: rest) :
    EulInv U src (stepE S) := by
  obtain ⟨rem, stack, out, last⟩ := S
  simp only at hstack
  subst hstack
  obtain ⟨hacct, hout, hstk, hphase⟩ := hS
  cases hfi : firstIncident rem cv with
  | some e =>
    rw [stepE_push rfl hfi]
    obtain ⟨hmem, hinc⟩ := firstIncident_some hfi
    refine ⟨?_, hout, ?_, ?_⟩
    · intro p
      have h := hacct p
      have herase := countP_erase_of_mem hmem p
      rw [stackE_cons_some, List.countP_cons]
      simp only [stackE] at h ⊢
      omega
    · show ((e.a = cv ∧ e.b = otherEnd e cv) ∨ (e.a = otherEnd e cv ∧ e.b = cv)) ∧
        StackOK src ((cv, ck) :: rest)
      exact ⟨otherEnd_endpoints_disj e hinc, hstk⟩
    · cases last with
      | none =>
        have hphase' : out = [] ∧ ParityM rem src cv := hphase
        exact ⟨hphase'.1, ParityM_step hmem hinc src hphase'.2⟩
      | some lp =>
        obtain ⟨lv, lk⟩ := lp
        cases lk with
        | none => exact hphase.elim
        | some f =>
          have hphase' : (f.a = lv ∨ f.b = lv) ∧ ChainFT (outPairs out) src lv ∧
              ParityM rem (otherEnd f lv) cv := hphase
          exact ⟨hphase'.1, hphase'.2.1,
            ParityM_step hmem hinc (otherEnd f lv) hphase'.2.2⟩
  | none =>
    have hdeg : uDegL rem cv = 0 := uDegL_zero_of_firstIncident_none hfi
    cases last with
    | none =>
      rw [stepE_pop rfl hfi]
      have hphase' : out = [] ∧ ParityM rem src cv := hphase
      have hsc : src = cv := ParityM_forced hphase'.2 hdeg
      show EulInv U src ⟨rem, rest, out, some (cv, ck)⟩
      cases rest with
      | nil =>
        cases ck with
        | some g =>
          have hbad : (some g : Option UEdge) = none := hstk.2
          exact Option.noConfusion hbad
        | none =>
          have hcvsrc : cv = src := hstk.1
          subst hcvsrc
          refine ⟨?_, hout, trivial, ?_⟩
          · intro p
            have h := hacct p
            simp only [stackE_cons_none] at h
            exact h
          · exact ⟨rfl, by rw [hphase'.1]; exact rfl⟩
      | cons ur rest2 =>
        obtain ⟨u, k⟩ := ur
        cases ck with
        | none => exact hstk.elim
        | some g =>
          have hstk' : ((g.a = u ∧ g.b = cv) ∨ (g.a = cv ∧ g.b = u)) ∧
              StackOK src ((u, k) :: rest2) := hstk
          refine ⟨?_, hout, hstk'.2, ?_⟩
          · intro p
            have h := hacct p
            rw [stackE_cons_some, List.countP_cons] at h
            simp only [lastE_none, lastE_some_some, List.countP_nil,
              List.countP_cons] at h ⊢
            omega
          · have hinc2 : g.a = cv ∨ g.b = cv := by
              rcases hstk'.1 with ⟨_, h2⟩ | ⟨h1, _⟩
              · exact Or.inr h2
              · exact Or.inl h1
            have hcc : ParityM rem cv cv := by
              have h2 := hphase'.2
              rw [hsc] at h2
              exact h2
            refine ⟨hinc2, ?_, ?_⟩
            · rw [hphase'.1]
              exact hsc
            · show ParityM rem (otherEnd g cv) u
              rw [otherEnd_of_endpoints hstk'.1]
              exact ParityM_even_of_self hcc u
    | some lp =>
      obtain ⟨lv, lk⟩ := lp
      cases lk with
      | none => exact hphase.elim
      | some f =>
        rw [stepE_pop rfl hfi]
        have hphase' : (f.a = lv ∨ f.b = lv) ∧ ChainFT (outPairs out) src lv ∧
            ParityM rem (otherEnd f lv) cv := hphase
        have hpc : otherEnd f lv = cv := ParityM_forced hphase'.2.2 hdeg
        have hfend : (f.a = lv ∧ f.b = cv) ∨ (f.a = cv ∧ f.b = lv) := by
          have h := otherEnd_endpoints_disj f hphase'.1
          rw [hpc] at h
          exact h
        have hcc : ParityM rem cv cv := by
          have h2 := hphase'.2.2
          rw [hpc] at h2
          exact h2
        have hout' : OutOK (out ++ [(lv, cv, some f)]) := by
          intro t ht
          rcases List.mem_append.mp ht with ht | ht
          · exact hout t ht
          · rw [List.mem_singleton] at ht
            subst ht
            exact ⟨f, rfl, hfend⟩
        have hchain : ChainFT (outPairs (out ++ [(lv, cv, some f)])) src cv := by
          have h := chainFT_snoc hphase'.2.1 cv
          simpa [outPairs] using h
        show EulInv U src ⟨rem, rest, out ++ [(lv, cv, some f)], some (cv, ck)⟩
        cases rest with
        | nil =>
          cases ck with
          | some g =>
            have hbad : (some g : Option UEdge) = none := hstk.2
            exact Option.noConfusion hbad
          | none =>
            have hcvsrc : cv = src := hstk.1
            subst hcvsrc
            refine ⟨?_, hout', trivial, ?_⟩
            · intro p
              have h := hacct p
              simp only [stackE_cons_none, stackE_nil, lastE_some_some,
                lastE_some_none, List.countP_nil, List.countP_cons] at h ⊢
              rw [outE_append_some, List.countP_append, List.countP_cons]
              simp only [List.countP_nil]
              omega
            · exact ⟨rfl, hchain⟩
        | cons ur rest2 =>
          obtain ⟨u, k⟩ := ur
          cases ck with
          | none => exact hstk.elim
          | some g =>
            have hstk' : ((g.a = u ∧ g.b = cv) ∨ (g.a = cv ∧ g.b = u)) ∧
                StackOK src ((u, k) :: rest2) := hstk
            refine ⟨?_, hout', hstk'.2, ?_⟩
            · intro p
              have h := hacct p
              rw [stackE_cons_some, List.countP_cons] at h
              simp only [lastE_some_some, List.countP_nil, List.countP_cons] at h ⊢
              rw [outE_append_some, List.countP_append, List.countP_cons]
              simp only [List.countP_nil]
              omega
            · have hinc2 : g.a = cv ∨ g.b = cv := by
                rcases hstk'.1 with ⟨_, h2⟩ | ⟨h1, _⟩
                · exact Or.inr h2
                · exact Or.inl h1
              refine ⟨hinc2, hchain, ?_⟩
              show ParityM rem (otherEnd g cv) u
              rw [otherEnd_of_endpoints hstk'.1]
              exact ParityM_even_of_self hcc u

end CPP


namespace CPP

theorem uDegL_le_of_countP_le {l p2 : List UEdge}
    (h : ∀ p : UEdge → Bool, l.countP p ≤ p2.countP p) (v : Node) :
    uDegL l v ≤ uDegL p2 v := by
  unfold uDegL
  have h1 := h (fun e => e.a == v)
  have h2 := h (fun e => e.b == v)
  omega

theorem stepE_push_s {S : EulSt} {cv : Node} {ck : Option UEdge}
    {rest : List (Node × Option UEdge)} {e : UEdge}
    (hstack : S.stack = (cv, ck) :: rest)
    (hfi : firstIncident S.rem cv = some e) :
    stepE S = ⟨S.rem.erase e, (otherEnd e cv, some e) :: (cv, ck) :: rest,
      S.out, S.last⟩ := by
  obtain ⟨rem, stack, out, last⟩ := S
  simp only at hstack hfi ⊢
  exact stepE_push hstack hfi

theorem stepE_pop_rem_stack {S : EulSt} {cv : Node} {ck : Option UEdge}
    {rest : List (Node × Option UEdge)}
    (hstack : S.stack = (cv, ck) :: rest)
    (hfi : firstIncident S.rem cv = none) :
    (stepE S).rem = S.rem ∧ (stepE S).stack = rest := by
  obtain ⟨rem, stack, out, last⟩ := S
  simp only at hstack hfi ⊢
  subst hstack
  cases last with
  | none =>
    rw [stepE_pop rfl hfi]
    exact ⟨rfl, rfl⟩
  | some lp =>
    obtain ⟨lv, lk⟩ := lp
    rw [stepE_pop rfl hfi]
    exact ⟨rfl, rfl⟩

/-- Running the loop with fuel at least `2|rem| + |stack|` empties the
stack, preserves the invariant, only shrinks the remaining-edge multiset,
leaves every vertex that was on the stack with no remaining incident edge,
and removes edges only after zeroing out both endpoints. -/
theorem runE_spec (U : UGraph) (src : Node) :
    ∀ (n : Nat) (S : EulSt), EulInv U src S →
      2 * S.rem.length + S.stack.length ≤ n →
      EulInv U src (runE n S) ∧ (runE n S).stack = [] ∧
      (∀ p : UEdge → Bool, (runE n S).rem.countP p ≤ S.rem.countP p) ∧
      (∀ v ∈ S.stack.map Prod.fst, uDegL (runE n S).rem v = 0) ∧
      (∀ e ∈ S.rem, e ∈ (runE n S).rem ∨
        (uDegL (runE n S).rem e.a = 0 ∧ uDegL (runE n S).rem e.b = 0)) := by
  intro n
  induction n with
  | zero =>
    intro S hS hfuel
    have hstack : S.stack = [] := List.length_eq_zero.mp (by omega)
    have hrem : S.rem = [] := List.length_eq_zero.mp (by omega)
    refine ⟨hS, hstack, fun p => le_refl _, ?_, ?_⟩
    · rw [hstack]
      intro v hv
      simp at hv
    · rw [hrem]
      intro e he
      simp at he
  | succ n ih =>
    intro S hS hfuel
    by_cases hst : S.stack = []
    · have hrun : runE (n + 1) S = S := by simp [runE, hst]
      rw [hrun]
      refine ⟨hS, hst, fun p => le_refl _, ?_, fun e he => Or.inl he⟩
      rw [hst]
      intro v hv
      simp at hv
    · obtain ⟨⟨cv, ck⟩, rest, hstack⟩ : ∃ q rest, S.stack = q :: rest := by
        cases hsk : S.stack with
        | nil => exact absurd hsk hst
        | cons q r => exact ⟨q, r, rfl⟩
      have hrun : runE (n + 1) S = runE n (stepE S) := by simp [runE, hst]
      rw [hrun]
      have hinv' := stepE_inv U src S hS hstack
      cases hfi : firstIncident S.rem cv with
      | some e =>
        have hse := stepE_push_s hstack hfi
        obtain ⟨hmem, hinc⟩ := firstIncident_some hfi
        have hrem2 : (stepE S).rem = S.rem.erase e := by rw [hse]
        have hstk2 : (stepE S).stack =
            (otherEnd e cv, some e) :: (cv, ck) :: rest := by rw [hse]
        have hlen := List.length_erase_of_mem hmem
        have hlenpos : 0 < S.rem.length :=
          List.length_pos.mpr (List.ne_nil_of_mem hmem)
        have hfuel2 : 2 * (stepE S).rem.length + (stepE S).stack.length ≤ n := by
          rw [hrem2, hstk2, hlen]
          rw [hstack] at hfuel
          simp only [List.length_cons] at hfuel ⊢
          omega
        obtain ⟨ihinv, ihstack, ihmono, ihstacked, ihrem⟩ :=
          ih (stepE S) hinv' hfuel2
        refine ⟨ihinv, ihstack, ?_, ?_, ?_⟩
        · intro p
          have h1 := ihmono p
          have h2 := countP_erase_of_mem hmem p
          rw [hrem2] at h1
          omega
        · intro v hv
          apply ihstacked
          rw [hstk2]
          simp only [List.map_cons]
          rw [hstack] at hv
          simp only [List.map_cons] at hv
          exact List.mem_cons_of_mem _ hv
        · intro x hx
          by_cases hmem2 : x ∈ (stepE S).rem
          · exact ihrem x hmem2
          · have hxe : x = e := by
              by_contra hne2
              apply hmem2
              rw [hrem2]
              exact (List.mem_erase_of_ne hne2).mpr hx
            subst hxe
            right
            have hw : otherEnd x cv ∈ (stepE S).stack.map Prod.fst := by
              rw [hstk2]
              simp
            have hcv : cv ∈ (stepE S).stack.map Prod.fst := by
              rw [hstk2]
              simp
            have h1 := ihstacked _ hw
            have h2 := ihstacked _ hcv
            rcases otherEnd_endpoints_disj x hinc with ⟨ha, hb⟩ | ⟨ha, hb⟩
            · exact ⟨by rw [ha]; exact h2, by rw [hb]; exact h1⟩
            · exact ⟨by rw [ha]; exact h1, by rw [hb]; exact h2⟩
      | none =>
        obtain ⟨hrem2, hstk2⟩ := stepE_pop_rem_stack hstack hfi
        have hdeg : uDegL S.rem cv = 0 := uDegL_zero_of_firstIncident_none hfi
        have hfuel2 : 2 * (stepE S).rem.length + (stepE S).stack.length ≤ n := by
          rw [hrem2, hstk2]
          rw [hstack] at hfuel
          simp only [List.length_cons] at hfuel
          omega
        obtain ⟨ihinv, ihstack, ihmono, ihstacked, ihrem⟩ :=
          ih (stepE S) hinv' hfuel2
        have hmono2 : ∀ p : UEdge → Bool,
            (runE n (stepE S)).rem.countP p ≤ S.rem.countP p := by
          intro p
          have h1 := ihmono p
          rw [hrem2] at h1
          exact h1
        refine ⟨ihinv, ihstack, hmono2, ?_, ?_⟩
        · intro v hv
          rw [hstack] at hv
          simp only [List.map_cons] at hv
          rcases List.mem_cons.mp hv with rfl | hv2
          · have hle := uDegL_le_of_countP_le hmono2 v
            omega
          · apply ihstacked
            rw [hstk2]
            exact hv2
        · intro x hx
          apply ihrem
          rw [hrem2]
          exact hx

end CPP

namespace CPP

theorem uDegL_zero_of_not_mem {U : UGraph} (hwf : WFu U) {x : Node}
    (hx : x ∉ U.nodes) : uDegL U.edges x = 0 := by
  unfold uDegL
  have h1 : U.edges.countP (fun e => e.a == x) = 0 := by
    rw [List.countP_eq_zero]
    intro e he
    simp only [beq_iff_eq]
    intro heq
    exact hx (heq ▸ (hwf e he).1)
  have h2 : U.edges.countP (fun e => e.b == x) = 0 := by
    rw [List.countP_eq_zero]
    intro e he
    simp only [beq_iff_eq]
    intro heq
    exact hx (heq ▸ (hwf e he).2)
  omega

/-- Correctness of `_multigraph_eulerian_circuit` on a connected even-degree
multigraph: the emitted pairs use every edge exactly once (per unordered
endpoint pair, with multiplicity) and form a closed chain from `src`. -/
theorem hierholzer_spec (U : UGraph) (hwf : WFu U) (src : Node)
    (heven : ∀ v ∈ U.nodes, uDeg U v % 2 = 0)
    (hconn : ∀ v ∈ U.nodes, Reaches (adjU U) src v) :
    (hierholzer U src).length = U.edges.length ∧
    (∀ a b : Node, (hierholzer U src).countP (pairMatch a b) =
      U.edges.countP (fun e => uMatch e a b)) ∧
    ChainFT (hierholzer U src) src src := by
  have hinv0 : EulInv U src (initEulSt U src) := by
    refine ⟨?_, ?_, ⟨rfl, rfl⟩, ?_⟩
    · intro p
      simp [initEulSt, stackE, outE, lastE]
    · intro t ht
      simp [initEulSt] at ht
    · refine ⟨rfl, ?_⟩
      intro x
      show uDegL U.edges x % 2 = markCount src src x % 2
      rw [markCount_self_mod]
      by_cases hx : x ∈ U.nodes
      · exact heven x hx
      · rw [uDegL_zero_of_not_mem hwf hx]
  obtain ⟨hinv, hstacknil, hmono, hstacked, hremcl⟩ :=
    runE_spec U src (2 * U.edges.length + 1) (initEulSt U src) hinv0
      (by simp [initEulSt])
  set F := runE (2 * U.edges.length + 1) (initEulSt U src) with hF
  obtain ⟨hacct, hout, hstk, hphase⟩ := hinv
  rw [hstacknil] at hphase
  have hsrc0 : uDegL F.rem src = 0 := by
    apply hstacked
    simp [initEulSt]
  have hzero : ∀ x, Reaches (adjU U) src x → uDegL F.rem x = 0 := by
    intro x hx
    induction hx with
    | refl => exact hsrc0
    | tail hab hbc ihx =>
      rename_i b c
      unfold adjU at hbc
      rw [mem_dedupFirst] at hbc
      obtain ⟨g, hgf, hgoe⟩ := List.mem_map.mp hbc
      have hgU : g ∈ U.edges := List.mem_of_mem_filter hgf
      have hgp := List.of_mem_filter hgf
      have hginc : g.a = b ∨ g.b = b := (uIncident_iff g b).mp hgp
      have hgnot : g ∉ F.rem := by
        intro hgin
        have := uDegL_pos_of_incident hgin hginc
        omega
      rcases hremcl g hgU with hgin | ⟨hza, hzb⟩
      · exact absurd hgin hgnot
      · rcases otherEnd_endpoint g b with h | h
        · rw [← hgoe, h]
          exact hza
        · rw [← hgoe, h]
          exact hzb
  have hremnil : F.rem = [] := by
    by_contra hne
    obtain ⟨e, he⟩ := List.exists_mem_of_ne_nil F.rem hne
    have heU : e ∈ U.edges := by
      have h1 := hmono (fun x => x == e)
      have h2 : 0 < F.rem.countP (fun x => x == e) :=
        List.countP_pos_iff.mpr ⟨e, he, by simp⟩
      have h3 : 0 < U.edges.countP (fun x => x == e) := by
        have h4 : (initEulSt U src).rem.countP (fun x => x == e) =
            U.edges.countP (fun x => x == e) := rfl
        omega
      obtain ⟨y, hy, hye⟩ := List.countP_pos_iff.mp h3
      rw [beq_iff_eq] at hye
      exact hye ▸ hy
    have hea : e.a ∈ U.nodes := (hwf e heU).1
    have h0 := hzero e.a (hconn e.a hea)
    have hpos := uDegL_pos_of_incident he (Or.inl rfl)
    omega
  cases hlast : F.last with
  | none =>
    rw [hlast] at hphase
    exact hphase.elim
  | some lp =>
    obtain ⟨lv, lk⟩ := lp
    cases lk with
    | some f =>
      rw [hlast] at hphase
      exact hphase.elim
    | none =>
      rw [hlast] at hphase
      have hchain : ChainFT (outPairs F.out) src src := hphase.2
      have hh : hierholzer U src = outPairs F.out := by
        rw [hF]
        rfl
      have hAcctFin : ∀ p : UEdge → Bool,
          U.edges.countP p = (outE F.out).countP p := by
        intro p
        have h := hacct p
        rw [hremnil, hstacknil, hlast] at h
        simp only [stackE_nil, lastE_some_none, List.countP_nil] at h
        omega
      refine ⟨?_, ?_, ?_⟩
      · have hcl : ∀ l : List UEdge, l.countP (fun _ => true) = l.length := by
          intro l
          induction l with
          | nil => rfl
          | cons y ys ihy => simp [List.countP_cons, ihy]
        have h := hAcctFin (fun _ => true)
        rw [hcl, hcl] at h
        rw [hh]
        unfold outPairs
        rw [List.length_map, ← outE_length_of_OutOK hout]
        omega
      · intro a b
        rw [hh, countP_outPairs_eq_outE hout a b]
        rw [hAcctFin (fun e => uMatch e a b)]
      · rw [hh]
        exact hchain

end CPP

namespace CPP

def twoCycle : Graph := addEdge (addEdge emptyGraph 1 2 ⟨some 3⟩) 2 1 ⟨some 3⟩

/-- C1 counterexample: the two-node directed cycle `1→2→1` satisfies the
directed Eulerian condition, yet `solve` returns the single-step circuit
`[(1, 2)]` — the undirected projection merges the two antiparallel edges
sharing key 0, `nx.eulerian_circuit` then reports the graph non-Eulerian,
and the DFS fallback emits one tree edge: the edge `2→1` of the augmented
graph never appears, the circuit's length is not the edge count, and the
sequence is not closed. -/
theorem C1_counterexample :
    isEulerian twoCycle = .ok true ∧
    solve (initSolver twoCycle) = .ok ⟨twoCycle, some twoCycle, some [(1, 2)]⟩ ∧
    numberOfEdges twoCycle = 2 ∧
    ([((1 : Node), (2 : Node))].length ≠ numberOfEdges twoCycle) ∧
    ([((1 : Node), (2 : Node))].countP (fun p => p == (2, 1)) = 0 ∧
      hasEdge twoCycle 2 1 = true) ∧
    (([((1 : Node), (2 : Node))].getLast (by decide)).2 ≠
      ([((1 : Node), (2 : Node))].head (by decide)).1) := by
  decide

/-- C1 (amended): when the *undirected projection* of the (already directed-
Eulerian) graph is Eulerian in networkx's sense, `solve` succeeds and the
circuit uses every edge of the projected augmented graph exactly once (per
unordered endpoint pair, with multiplicity), is internally consistent, and
is closed. -/
theorem C1_circuit_amended (G : Graph) (hwf : WFg G)
    (hEu : isEulerian G = .ok true)
    (hUEu : nxIsEulerianU (toUndirected G) = .ok true) :
    ∃ c, solve (initSolver G) = .ok ⟨G, some G, some c⟩ ∧
      c.length = (toUndirected G).edges.length ∧
      (∀ a b : Node, c.countP (pairMatch a b) =
        (toUndirected G).edges.countP (fun e => uMatch e a b)) ∧
      (∀ i : Nat, ∀ hi : i + 1 < c.length,
        (c.get ⟨i, Nat.lt_of_succ_lt hi⟩).2 = (c.get ⟨i + 1, hi⟩).1) ∧
      (∀ hne : c ≠ [], (c.getLast hne).2 = (c.head hne).1) := by
  have hwu : WFu (toUndirected G) := toUndirected_WFu hwf
  set U := toUndirected G with hU
  have hconnE : isConnectedExcU U = .ok true := by
    unfold nxIsEulerianU at hUEu
    by_cases hall : U.nodes.all (fun v => uDeg U v % 2 == 0)
    · rw [if_pos hall] at hUEu
      exact hUEu
    · rw [if_neg hall] at hUEu
      simp at hUEu
  have hall : U.nodes.all (fun v => uDeg U v % 2 == 0) = true := by
    unfold nxIsEulerianU at hUEu
    by_cases hall : U.nodes.all (fun v => uDeg U v % 2 == 0)
    · exact hall
    · rw [if_neg hall] at hUEu
      simp at hUEu
  have heven : ∀ v ∈ U.nodes, uDeg U v % 2 = 0 := by
    intro v hv
    have h := List.all_eq_true.mp hall v hv
    simpa using h
  obtain ⟨s, rest0, hns⟩ : ∃ s rest0, U.nodes = s :: rest0 := by
    cases hns : U.nodes with
    | nil =>
      unfold isConnectedExcU at hconnE
      rw [hns] at hconnE
      exact absurd hconnE (by simp)
    | cons s r => exact ⟨s, r, rfl⟩
  have hreach : ∀ v ∈ U.nodes, v ∈ reachableFrom U.nodes (adjU U) s := by
    unfold isConnectedExcU at hconnE
    rw [hns] at hconnE
    intro v hv
    have h := Except.ok.inj hconnE
    have h2 := List.all_eq_true.mp h v (hns ▸ hv)
    simp at h2
    rw [← hns] at h2
    exact h2
  have hsmem : s ∈ U.nodes := by
    rw [hns]
    exact List.mem_cons_self _ _
  have hconn : ∀ v ∈ U.nodes, Reaches (adjU U) s v := by
    intro v hv
    exact (mem_reachableFrom_iff U.nodes (adjU U) (adjU_closed hwu) s hsmem v).mp
      (hreach v hv)
  have hcu : eulerianCircuitU U = .ok (hierholzer U s) := by
    unfold eulerianCircuitU
    rw [hUEu, exceptBind_ok, if_pos rfl, hns]
    rfl
  have hfec : findEulerCircuit G = .ok (hierholzer U s) := by
    simp only [findEulerCircuit]
    rw [← hU, hconnE, exceptBind_ok, if_pos rfl, hcu]
    rfl
  have haug : augmentStep G = .ok G := by
    unfold augmentStep
    rw [hEu]
    rfl
  have hsolve : solve (initSolver G) = .ok ⟨G, some G, some (hierholzer U s)⟩ := by
    unfold solve
    rw [initSolver_graph, haug, exceptBind_ok, hfec, exceptBind_ok]
    rfl
  obtain ⟨hlen, hcount, hchain⟩ := hierholzer_spec U hwu s heven hconn
  refine ⟨hierholzer U s, hsolve, hlen, hcount, ?_, ?_⟩
  · intro i hi
    exact chainFT_get hchain i hi
  · intro hne
    exact (chainFT_head_last hchain hne).2.trans
      ((chainFT_head_last hchain hne).1.symm)

theorem C1_amended_witness :
    (WFg triangleGraph ∧ isEulerian triangleGraph = .ok true ∧
      nxIsEulerianU (toUndirected triangleGraph) = .ok true) ∧
    (∃ c, solve (initSolver triangleGraph) =
        .ok ⟨triangleGraph, some triangleGraph, some c⟩ ∧
      c.length = (toUndirected triangleGraph).edges.length ∧
      (∀ a b : Node, c.countP (pairMatch a b) =
        (toUndirected triangleGraph).edges.countP (fun e => uMatch e a b)) ∧
      (∀ i : Nat, ∀ hi : i + 1 < c.length,
        (c.get ⟨i, Nat.lt_of_succ_lt hi⟩).2 = (c.get ⟨i + 1, hi⟩).1) ∧
      (∀ hne : c ≠ [], (c.getLast hne).2 = (c.head hne).1)) :=
  ⟨⟨by decide, by decide, by decide⟩,
    C1_circuit_amended triangleGraph (by decide) (by decide) (by decide)⟩

end CPP
